import Mathlib

/-!
Verification development for the PII anonymizer core
(`src/pii_anonymizer/document_processor.py` and `src/utils/alias_generator.py`).

The Python code is shallowly embedded: text is `String`, Python dicts are
association lists (insertion-ordered, unique keys maintained by `dictSet`),
the `re` module is a small backtracking regex engine over an explicit AST
(each pattern of the source is transliterated into that AST), `random.choice`
draws are an injected stream of indices, and `uuid.uuid4().hex[:8]` draws are
an injected stream of strings.  All definitions are fuel-structural so that
concrete runs evaluate inside the kernel.
-/

set_option maxRecDepth 20000

namespace Pii

/-! ### Small Python-style string utilities -/

/-- Membership-based association-list lookup (Python `dict.get(k)`); dicts are
insertion-ordered lists of pairs with unique keys. -/
def dictGet {α : Type} (m : List (String × α)) (k : String) : Option α :=
  match m with
  | [] => none
  | (k', v) :: rest => if k' = k then some v else dictGet rest k

/-- Python `dict.get(k, d)`. -/
def dictGetD {α : Type} (m : List (String × α)) (k : String) (d : α) : α :=
  (dictGet m k).getD d

/-- Python `dict[k] = v`: replace the value in place if the key exists,
otherwise append the new pair (insertion order). -/
def dictSet {α : Type} (m : List (String × α)) (k : String) (v : α) :
    List (String × α) :=
  match m with
  | [] => [(k, v)]
  | (k', v') :: rest =>
      if k' = k then (k', v) :: rest else (k', v') :: dictSet rest k v

/-- Characters of a text between two positions, Python `s[a:b]`. -/
def strSlice (s : String) (a b : Nat) : String :=
  ⟨(s.data.take b).drop a⟩

/-- Python `str.find`: index of the first occurrence of `sub`, `-1` if absent. -/
def pyFindAux (sub : List Char) : List Char → Nat → Int
  | [], i => if sub = [] then (i : Int) else -1
  | c :: t, i =>
      if sub.isPrefixOf (c :: t) then (i : Int) else pyFindAux sub t (i + 1)

/-- Python `str.find` on strings. -/
def pyFind (s sub : String) : Int :=
  pyFindAux sub.data s.data 0

/-- Substring containment, Python `needle in hay`. -/
def pyContains (hay needle : String) : Bool :=
  decide (needle.data <:+: hay.data)

/-- Python `str.replace(old, new)` on character lists, by fuel; replaces
non-overlapping occurrences left to right.  Callers only pass non-empty `old`
(regex matches in this code base are never empty). -/
def repAllF (v p : List Char) : Nat → List Char → List Char
  | 0, s => s
  | f + 1, s =>
      if v ≠ [] ∧ v.isPrefixOf s then p ++ repAllF v p f (s.drop v.length)
      else
        match s with
        | [] => []
        | c :: t => c :: repAllF v p f t

/-- Python `str.replace(old, new)` on character lists. -/
def repAll (v p s : List Char) : List Char :=
  repAllF v p s.length s

/-- Python `str.replace(old, new)` on strings. -/
def pyReplace (s v p : String) : String :=
  ⟨repAll v.data p.data s.data⟩

/-- ASCII uppercasing, Python `str.upper()` on the strings this program uses. -/
def pyUpper (s : String) : String :=
  ⟨s.data.map Char.toUpper⟩

/-- ASCII lowercasing, Python `str.lower()` on the strings this program uses. -/
def pyLower (s : String) : String :=
  ⟨s.data.map Char.toLower⟩

/-- Python whitespace (the ASCII part, all that occurs in this development). -/
def pyIsSpaceChar (c : Char) : Bool :=
  c = ' ' ∨ c = '\t' ∨ c = '\n' ∨ c = '\r' ∨ c = '\x0b' ∨ c = '\x0c'

/-- Python `str.strip()`. -/
def pyStrip (s : String) : String :=
  ⟨((s.data.dropWhile pyIsSpaceChar).reverse.dropWhile pyIsSpaceChar).reverse⟩

/-- Python `str.strip(chars)` for a single strip character. -/
def pyStripChar (s : String) (ch : Char) : String :=
  ⟨((s.data.dropWhile (· = ch)).reverse.dropWhile (· = ch)).reverse⟩

/-- Python `str.split()` (split on whitespace runs, dropping empties). -/
def pySplitWsAux : List Char → List Char → List String
  | [], acc => if acc = [] then [] else [⟨acc.reverse⟩]
  | c :: t, acc =>
      if pyIsSpaceChar c then
        if acc = [] then pySplitWsAux t [] else ⟨acc.reverse⟩ :: pySplitWsAux t []
      else pySplitWsAux t (c :: acc)

/-- Python `str.split()` on strings. -/
def pySplitWs (s : String) : List String :=
  pySplitWsAux s.data []

/-- ASCII cased characters (sufficient for the strings this program handles). -/
def pyIsCased (c : Char) : Bool :=
  (('a' ≤ c ∧ c ≤ 'z') ∨ ('A' ≤ c ∧ c ≤ 'Z'))

/-- Python `str.isupper()`: at least one cased character and no lowercase one. -/
def pyIsUpper (s : String) : Bool :=
  s.data.any pyIsCased ∧ s.data.all fun c => ¬ ('a' ≤ c ∧ c ≤ 'z')

/-- Python `str.islower()`: at least one cased character and no uppercase one. -/
def pyIsLower (s : String) : Bool :=
  s.data.any pyIsCased ∧ s.data.all fun c => ¬ ('A' ≤ c ∧ c ≤ 'Z')

/-- Python `c.isupper()` for a single character. -/
def pyIsUpperChar (c : Char) : Bool :=
  'A' ≤ c ∧ c ≤ 'Z'

/-! ### Decimal representation of naturals (Python f-string `{n}`) -/

/-- Decimal digits of `n`, least significant first, driven by fuel. -/
def decDigits : Nat → Nat → List Nat
  | 0, _ => []
  | f + 1, n => if n = 0 then [] else (n % 10) :: decDigits f (n / 10)

/-- Digit-to-character map for decimal printing. -/
def digChar : Nat → Char
  | 0 => '0' | 1 => '1' | 2 => '2' | 3 => '3' | 4 => '4'
  | 5 => '5' | 6 => '6' | 7 => '7' | 8 => '8' | _ => '9'

/-- Decimal representation of a natural number, as Python `str(n)` produces. -/
def decRepr (n : Nat) : String :=
  if n = 0 then "0" else ⟨((decDigits n n).map digChar).reverse⟩

/-- Value of a least-significant-first digit list. -/
def ofDigits : List Nat → Nat
  | [] => 0
  | d :: ds => d + 10 * ofDigits ds

/-- Decimal parse of a string (proof-side inverse of `decRepr`). -/
def decVal (s : String) : Nat :=
  s.data.foldl (fun a c => a * 10 + (c.toNat - 48)) 0

theorem decDigits_val {f n : Nat} (h : n ≤ f) : ofDigits (decDigits f n) = n := by
  induction f generalizing n with
  | zero => interval_cases n; simp [decDigits, ofDigits]
  | succ f ih =>
      by_cases h0 : n = 0
      · simp [decDigits, h0, ofDigits]
      · have hdiv : n / 10 ≤ f := by
          have : n / 10 < n := Nat.div_lt_self (Nat.pos_of_ne_zero h0) (by omega)
          omega
        simp only [decDigits, h0, if_false, ofDigits, ih hdiv]
        omega

theorem decDigits_lt_ten {f n : Nat} : ∀ d ∈ decDigits f n, d < 10 := by
  induction f generalizing n with
  | zero => simp [decDigits]
  | succ f ih =>
      intro d hd
      by_cases h0 : n = 0
      · simp [decDigits, h0] at hd
      · simp only [decDigits, h0, if_false, List.mem_cons] at hd
        rcases hd with h | h
        · omega
        · exact ih d h

theorem digChar_toNat {d : Nat} (h : d < 10) : (digChar d).toNat - 48 = d := by
  interval_cases d <;> rfl

theorem foldl_rev_digits (ds : List Nat) (h : ∀ d ∈ ds, d < 10) (a : Nat) :
    ((ds.map digChar).reverse).foldl (fun a c => a * 10 + (c.toNat - 48)) a =
      a * 10 ^ ds.length + ofDigits ds := by
  induction ds generalizing a with
  | nil => simp [ofDigits]
  | cons d ds ih =>
      have hd : d < 10 := h d (List.mem_cons_self _ _)
      have hds : ∀ x ∈ ds, x < 10 := fun x hx => h x (List.mem_cons_of_mem _ hx)
      simp only [List.map_cons, List.reverse_cons, List.foldl_append, List.foldl_cons,
        List.foldl_nil, ih hds, ofDigits, List.length_cons, digChar_toNat hd]
      ring

theorem decVal_decRepr (n : Nat) : decVal (decRepr n) = n := by
  by_cases h0 : n = 0
  · simp [decRepr, h0, decVal]
  · have h1 : decVal (decRepr n) =
        0 * 10 ^ (decDigits n n).length + ofDigits (decDigits n n) := by
      simp only [decVal, decRepr, h0, if_false]
      exact foldl_rev_digits (decDigits n n) (fun d hd => decDigits_lt_ten d hd) 0
    rw [h1, decDigits_val (Nat.le_refl n)]
    omega

theorem decRepr_inj {m n : Nat} (h : decRepr m = decRepr n) : m = n := by
  have := congrArg decVal h
  rwa [decVal_decRepr, decVal_decRepr] at this

theorem string_append_cancel {s a b : String} (h : s ++ a = s ++ b) : a = b := by
  have hd : (s ++ a).data = (s ++ b).data := congrArg String.data h
  simp only [String.data_append] at hd
  have h2 := List.append_cancel_left hd
  cases a; cases b; exact congrArg String.mk h2

/-! ### A backtracking regex engine (the fragment of Python `re` this code uses)

Alternation prefers the left branch, quantifiers are greedy, `\b` is a word
boundary, `(?=...)` is a lookahead.  `rep a lo hi` is `a{lo,hi}` with
`hi = none` for an unbounded quantifier.  Capturing and non-capturing groups
both erase to their body (the source only ever uses `group(0)`/`span()`). -/

inductive RE where
  | eps : RE
  | chr : Char → RE
  | cls : (Char → Bool) → RE
  | cat : RE → RE → RE
  | alt : RE → RE → RE
  | rep : RE → Nat → Option Nat → RE
  | look : RE → RE
  | wb : RE

/-- Word characters for `\b` (Python `\w`: ASCII alphanumerics, underscore,
and the Latin-1 letters that can occur via the `À-ÿ` character class). -/
def isWordChar (c : Char) : Bool :=
  c.isAlphanum ∨ c = '_' ∨
    (('\xc0' ≤ c ∧ c ≤ '\xff') ∧ ¬ c = '\xd7' ∧ ¬ c = '\xf7') ∨
    c = '\xaa' ∨ c = '\xb5' ∨ c = '\xba'

/-- Word-boundary test at position `i` of the text. -/
def wordBoundaryAt (t : List Char) (i : Nat) : Bool :=
  let a := if h : 0 < i ∧ i - 1 < t.length then isWordChar (t.get ⟨i - 1, h.2⟩) else false
  let b := if h : i < t.length then isWordChar (t.get ⟨i, h⟩) else false
  a ≠ b

/-- First-`some` choice, the backtracking combinator. -/
def optOr (x : Option Nat) (y : Unit → Option Nat) : Option Nat :=
  match x with
  | some v => some v
  | none => y ()

/-- The matcher: `reMatch t f r i k` tries to match `r` in text `t` starting at
position `i` and continues with `k` on the end position; `f` is fuel.  It
realizes Python `re` semantics on the fragment used here (left-biased
alternation, greedy quantifiers with backtracking). -/
def reMatch (t : List Char) : Nat → RE → Nat → (Nat → Option Nat) → Option Nat
  | 0, _, _, _ => none
  | _ + 1, RE.eps, i, k => k i
  | _ + 1, RE.chr c, i, k =>
      match t[i]? with
      | some d => if d = c then k (i + 1) else none
      | none => none
  | _ + 1, RE.cls p, i, k =>
      match t[i]? with
      | some d => if p d then k (i + 1) else none
      | none => none
  | f + 1, RE.cat a b, i, k => reMatch t f a i fun j => reMatch t f b j k
  | f + 1, RE.alt a b, i, k =>
      optOr (reMatch t f a i k) fun _ => reMatch t f b i k
  | f + 1, RE.rep a lo hi, i, k =>
      match lo, hi with
      | 0, some 0 => k i
      | 0, _ =>
          optOr (reMatch t f a i fun j =>
              if i < j then reMatch t f (RE.rep a 0 (hi.map (· - 1))) j k else none)
            fun _ => k i
      | lo' + 1, _ =>
          reMatch t f a i fun j => reMatch t f (RE.rep a lo' (hi.map (· - 1))) j k
  | f + 1, RE.look a, i, k =>
      match reMatch t f a i some with
      | some _ => k i
      | none => none
  | _ + 1, RE.wb, i, k => if wordBoundaryAt t i then k i else none

/-- Structural size of a regex, used only to compute a sufficient fuel. -/
def reSize : RE → Nat
  | RE.eps => 1
  | RE.chr _ => 1
  | RE.cls _ => 1
  | RE.cat a b => reSize a + reSize b + 1
  | RE.alt a b => reSize a + reSize b + 1
  | RE.rep a _ _ => reSize a + 1
  | RE.look a => reSize a + 1
  | RE.wb => 1

/-- Generous fuel: quantifier bodies in all embedded patterns consume at least
one character per iteration, so this bound is far beyond what any match of
those patterns can use. -/
def reFuel (t : List Char) (r : RE) : Nat :=
  40 * (t.length + 2) * (reSize r + 2) + 400

/-- Python `re.match`-at-position: end position of the (leftmost, greedy)
match of `r` at position `i`, if any. -/
def reMatchEnd (r : RE) (t : List Char) (i : Nat) : Option Nat :=
  reMatch t (reFuel t r) r i some

/-- Python `re.finditer` span scan: attempt a match at every position left to
right, skip to the match end when a non-empty match is found. -/
def findIterGo (r : RE) (t : List Char) : Nat → Nat → List (Nat × Nat)
  | 0, _ => []
  | f + 1, i =>
      if i > t.length then []
      else
        match reMatchEnd r t i with
        | some j =>
            if i < j then (i, j) :: findIterGo r t f j
            else (i, j) :: findIterGo r t f (i + 1)
        | none => findIterGo r t f (i + 1)

/-- Python `re.finditer`: the list of spans of non-overlapping matches. -/
def findIter (r : RE) (s : String) : List (Nat × Nat) :=
  findIterGo r s.data (s.data.length + 2) 0

/-- Python `re.search` as a Boolean: does `r` match anywhere in `s`? -/
def reSearch (r : RE) (s : String) : Bool :=
  ¬ findIter r s = []

/-! #### Regex construction helpers -/

/-- Concatenation of a list of regexes. -/
def rcat : List RE → RE
  | [] => RE.eps
  | [r] => r
  | r :: rs => RE.cat r (rcat rs)

/-- Alternation of a list of regexes, left-biased like Python. -/
def ralt : List RE → RE
  | [] => RE.cls fun _ => false
  | [r] => r
  | r :: rs => RE.alt r (ralt rs)

/-- Literal string regex. -/
def rstr (s : String) : RE :=
  s.data.foldr (fun c r => RE.cat (RE.chr c) r) RE.eps

/-- Optional (`?`). -/
def ropt (a : RE) : RE := RE.rep a 0 (some 1)

/-- Kleene star (`*`). -/
def rstar (a : RE) : RE := RE.rep a 0 none

/-- One-or-more (`+`). -/
def rmore (a : RE) : RE := RE.rep a 1 none

/-- Bounded repetition (`{m,n}`). -/
def rrep (a : RE) (m n : Nat) : RE := RE.rep a m (some n)

/-- Exact repetition (`{n}`). -/
def rexact (a : RE) (n : Nat) : RE := RE.rep a n (some n)

/-- Character range test. -/
def inR (lo hi c : Char) : Bool := lo ≤ c ∧ c ≤ hi

/-- Python `\d` (the ASCII digits that occur in this development). -/
def isDigitC (c : Char) : Bool := inR '0' '9' c

/-- Digit regex `\d`. -/
def rdig : RE := RE.cls isDigitC

/-- Whitespace regex `\s`. -/
def rsp : RE := RE.cls pyIsSpaceChar

/-! ### The default pattern catalog (`PiiConfig.patterns`), transliterated

Each definition carries the source regex it embeds. -/

/-- Alternation over literal strings. -/
def raltStr (l : List String) : RE := ralt (l.map rstr)

/-- The apostrophe character. -/
def apos : Char := Char.ofNat 39

/-- Class `[A-Za-z0-9._%+-]` (email local part). -/
def clsEmailLocal (c : Char) : Bool :=
  inR 'A' 'Z' c ∨ inR 'a' 'z' c ∨ inR '0' '9' c ∨
    c = '.' ∨ c = '_' ∨ c = '%' ∨ c = '+' ∨ c = '-'

/-- Class `[A-Za-z0-9.-]` (email domain). -/
def clsEmailDomain (c : Char) : Bool :=
  inR 'A' 'Z' c ∨ inR 'a' 'z' c ∨ inR '0' '9' c ∨ c = '.' ∨ c = '-'

/-- Class `[A-Z|a-z]` (email TLD; the source class literally contains a bar). -/
def clsAlphaBar (c : Char) : Bool :=
  inR 'A' 'Z' c ∨ c = '|' ∨ inR 'a' 'z' c

/-- `EMAIL`: `\b[A-Za-z0-9._%+-]+@[A-Za-z0-9.-]+\.[A-Z|a-z]{2,}\b`. -/
def emailRe : RE :=
  rcat [RE.wb, rmore (RE.cls clsEmailLocal), RE.chr '@',
    rmore (RE.cls clsEmailDomain), RE.chr '.',
    RE.rep (RE.cls clsAlphaBar) 2 none, RE.wb]

/-- Class `[-\s.]`. -/
def clsDashSpDot (c : Char) : Bool := c = '-' ∨ pyIsSpaceChar c ∨ c = '.'

/-- Class `[-\s]`. -/
def clsDashSp (c : Char) : Bool := c = '-' ∨ pyIsSpaceChar c

/-- `PHONE`:
`\(\d{3}\)\s*\d{3}[-\s.]\d{4}\b|\+\d{1,3}(?:[-\s]\d{2,4})+\b|\b\d{3}[-\s.]\d{3}[-\s.]\d{4}\b|\b\d{3}[-]\d{4}\b`. -/
def phoneRe : RE :=
  ralt
    [rcat [RE.chr '(', rexact rdig 3, RE.chr ')', rstar rsp,
       rexact rdig 3, RE.cls clsDashSpDot, rexact rdig 4, RE.wb],
     rcat [RE.chr '+', rrep rdig 1 3,
       rmore (RE.cat (RE.cls clsDashSp) (rrep rdig 2 4)), RE.wb],
     rcat [RE.wb, rexact rdig 3, RE.cls clsDashSpDot, rexact rdig 3,
       RE.cls clsDashSpDot, rexact rdig 4, RE.wb],
     rcat [RE.wb, rexact rdig 3, RE.chr '-', rexact rdig 4, RE.wb]]

/-- `SSN`: `\b\d{3}[-]?\d{2}[-]?\d{4}\b`. -/
def ssnRe : RE :=
  rcat [RE.wb, rexact rdig 3, ropt (RE.chr '-'), rexact rdig 2,
    ropt (RE.chr '-'), rexact rdig 4, RE.wb]

/-- `CREDIT_CARD`: `\b(?:\d{4}[-\s]?\d{6}[-\s]?\d{5}|\d{4}(?:[-\s]?\d{4}){3})\b`. -/
def creditCardRe : RE :=
  rcat [RE.wb,
    RE.alt
      (rcat [rexact rdig 4, ropt (RE.cls clsDashSp), rexact rdig 6,
        ropt (RE.cls clsDashSp), rexact rdig 5])
      (rcat [rexact rdig 4,
        rexact (RE.cat (ropt (RE.cls clsDashSp)) (rexact rdig 4)) 3]),
    RE.wb]

/-- `IP_ADDRESS`: `\b(?:\d{1,3}\.){3}\d{1,3}\b`. -/
def ipRe : RE :=
  rcat [RE.wb, rexact (RE.cat (rrep rdig 1 3) (RE.chr '.')) 3,
    rrep rdig 1 3, RE.wb]

/-- Class `[/\-]`. -/
def clsSlashDash (c : Char) : Bool := c = '/' ∨ c = '-'

/-- Class `[a-z]`. -/
def clsLowerAZ (c : Char) : Bool := inR 'a' 'z' c

/-- Month name abbreviations of the `DATE` pattern. -/
def monthAbbrevs : List String :=
  ["Jan", "Feb", "Mar", "Apr", "May", "Jun", "Jul", "Aug", "Sep", "Sept",
   "Oct", "Nov", "Dec"]

/-- Full month names of the `DATE` pattern. -/
def monthNames : List String :=
  ["January", "February", "March", "April", "May", "June", "July", "August",
   "September", "October", "November", "December"]

/-- `DATE`, alternative by alternative in source order:
`\b\d{1,2}[/\-]\d{1,2}[/\-]\d{2,4}\b`
`|(?:Jan|...|Dec)[a-z]*\.?\s+\d{1,2},?\s+\d{4}`
`|\b(?:January|...|December)\s+\d{1,2},?\s+\d{4}`
`|\b(?:January|...|December)\s+\d{4}`
`|\b(?:Jan|...|Dec)[a-z]*\.?\s+\d{4}`
`|\b(?:January|...|December)\b`
`|\b(?:19|20)\d{2}\b`
`|\b\d{1,2}\b(?=\s*,)`. -/
def dateRe : RE :=
  ralt
    [rcat [RE.wb, rrep rdig 1 2, RE.cls clsSlashDash, rrep rdig 1 2,
       RE.cls clsSlashDash, rrep rdig 2 4, RE.wb],
     rcat [raltStr monthAbbrevs, rstar (RE.cls clsLowerAZ), ropt (RE.chr '.'),
       rmore rsp, rrep rdig 1 2, ropt (RE.chr ','), rmore rsp, rexact rdig 4],
     rcat [RE.wb, raltStr monthNames, rmore rsp, rrep rdig 1 2,
       ropt (RE.chr ','), rmore rsp, rexact rdig 4],
     rcat [RE.wb, raltStr monthNames, rmore rsp, rexact rdig 4],
     rcat [RE.wb, raltStr monthAbbrevs, rstar (RE.cls clsLowerAZ),
       ropt (RE.chr '.'), rmore rsp, rexact rdig 4],
     rcat [RE.wb, raltStr monthNames, RE.wb],
     rcat [RE.wb, RE.alt (rstr "19") (rstr "20"), rexact rdig 2, RE.wb],
     rcat [RE.wb, rrep rdig 1 2, RE.wb,
       RE.look (RE.cat (rstar rsp) (RE.chr ','))]]

/-- Class `[NSEW]`. -/
def clsNSEW (c : Char) : Bool := c = 'N' ∨ c = 'S' ∨ c = 'E' ∨ c = 'W'

/-- Class `[A-Z]`. -/
def clsUpperAZ (c : Char) : Bool := inR 'A' 'Z' c

/-- Class `[A-Z0-9]`. -/
def clsUpperDigit (c : Char) : Bool := inR 'A' 'Z' c ∨ inR '0' '9' c

/-- Capitalized-word piece `[A-Z][a-z]+` of the `ADDRESS` pattern. -/
def capWordRe : RE := RE.cat (RE.cls clsUpperAZ) (rmore (RE.cls clsLowerAZ))

/-- `ADDRESS`:
`\b\d{1,5}\s+(?:[NSEW]\.?\s+)?[A-Z][a-z]+(?:\s+[A-Z][a-z]+)*\s+(?:Avenue|Ave|Road|Rd|Street|St|Blvd|Boulevard|Drive|Dr|Lane|Ln|Way|Place|Pl|Court|Ct)\.?(?:,\s+(?:Building|Bldg|Suite|Ste|Unit|Apt)\.?\s+[A-Z0-9]+)?(?:,\s+[A-Z][a-z]+(?:\s+[A-Z][a-z]+)*,\s+[A-Z]{2}\s+\d{5}(?:-\d{4})?)?\b`. -/
def addressRe : RE :=
  rcat [RE.wb, rrep rdig 1 5, rmore rsp,
    ropt (rcat [RE.cls clsNSEW, ropt (RE.chr '.'), rmore rsp]),
    capWordRe, rstar (RE.cat (rmore rsp) capWordRe), rmore rsp,
    raltStr ["Avenue", "Ave", "Road", "Rd", "Street", "St", "Blvd",
      "Boulevard", "Drive", "Dr", "Lane", "Ln", "Way", "Place", "Pl",
      "Court", "Ct"],
    ropt (RE.chr '.'),
    ropt (rcat [RE.chr ',', rmore rsp,
      raltStr ["Building", "Bldg", "Suite", "Ste", "Unit", "Apt"],
      ropt (RE.chr '.'), rmore rsp, rmore (RE.cls clsUpperDigit)]),
    ropt (rcat [RE.chr ',', rmore rsp, capWordRe,
      rstar (RE.cat (rmore rsp) capWordRe), RE.chr ',', rmore rsp,
      rexact (RE.cls clsUpperAZ) 2, rmore rsp, rexact rdig 5,
      ropt (RE.cat (RE.chr '-') (rexact rdig 4))]),
    RE.wb]

/-- Class `[-a-zA-Z0-9@:%._\+~#=]`. -/
def clsUrlHost (c : Char) : Bool :=
  c = '-' ∨ inR 'a' 'z' c ∨ inR 'A' 'Z' c ∨ inR '0' '9' c ∨
    c = '@' ∨ c = ':' ∨ c = '%' ∨ c = '.' ∨ c = '_' ∨ c = '+' ∨
    c = '~' ∨ c = '#' ∨ c = '='

/-- Class `[a-zA-Z0-9()]`. -/
def clsUrlTld (c : Char) : Bool :=
  inR 'a' 'z' c ∨ inR 'A' 'Z' c ∨ inR '0' '9' c ∨ c = '(' ∨ c = ')'

/-- Class `[-a-zA-Z0-9()@:%_\+.~#?&//=]`. -/
def clsUrlTail (c : Char) : Bool :=
  c = '-' ∨ inR 'a' 'z' c ∨ inR 'A' 'Z' c ∨ inR '0' '9' c ∨
    c = '(' ∨ c = ')' ∨ c = '@' ∨ c = ':' ∨ c = '%' ∨ c = '_' ∨ c = '+' ∨
    c = '.' ∨ c = '~' ∨ c = '#' ∨ c = '?' ∨ c = '&' ∨ c = '/' ∨ c = '='

/-- `URL`:
`https?://(?:www\.)?[-a-zA-Z0-9@:%._\+~#=]{1,256}\.[a-zA-Z0-9()]{1,6}\b(?:[-a-zA-Z0-9()@:%_\+.~#?&//=]*)`. -/
def urlRe : RE :=
  rcat [rstr "http", ropt (RE.chr 's'), rstr "://", ropt (rstr "www."),
    rrep (RE.cls clsUrlHost) 1 256, RE.chr '.', rrep (RE.cls clsUrlTld) 1 6,
    RE.wb, rstar (RE.cls clsUrlTail)]

/-- Class `[\$\€\£\¥]`. -/
def clsCurrSym (c : Char) : Bool := c = '$' ∨ c = '€' ∨ c = '£' ∨ c = '¥'

/-- Class `[,\s]`. -/
def clsCommaSp (c : Char) : Bool := c = ',' ∨ pyIsSpaceChar c

/-- `CURRENCY`: `[\$\€\£\¥]\s?\d{1,3}(?:[,\s]\d{3})*(?:\.\d{1,2})?`. -/
def currencyRe : RE :=
  rcat [RE.cls clsCurrSym, ropt rsp, rrep rdig 1 3,
    rstar (RE.cat (RE.cls clsCommaSp) (rexact rdig 3)),
    ropt (RE.cat (RE.chr '.') (rrep rdig 1 2))]

/-- The default `PiiConfig.patterns` dict in source (insertion) order. -/
def defaultPatterns : List (String × RE) :=
  [("EMAIL", emailRe), ("PHONE", phoneRe), ("SSN", ssnRe),
   ("CREDIT_CARD", creditCardRe), ("IP_ADDRESS", ipRe), ("DATE", dateRe),
   ("ADDRESS", addressRe), ("URL", urlRe), ("CURRENCY", currencyRe)]

/-! ### NER-stage regexes of `_detect_entities_with_ner` -/

/-- Class `[A-Za-zÀ-ÿ\']` (tail of a capitalized word; the `À-ÿ` range is the
literal code-point range of the source class). -/
def clsNameTail (c : Char) : Bool :=
  inR 'A' 'Z' c ∨ inR 'a' 'z' c ∨ inR '\xc0' '\xff' c ∨ c = apos

/-- Class `[ \t]`. -/
def clsSpTab (c : Char) : Bool := c = ' ' ∨ c = '\t'

/-- Proper-noun run:
`\b[A-Z][A-Za-zÀ-ÿ\']*(?:[ \t]+(?:[A-Z][A-Za-zÀ-ÿ\']*|of|and|the|de|la|le|du)|[ \t]+\d+)*\b`. -/
def properNounRe : RE :=
  rcat [RE.wb, RE.cls clsUpperAZ, rstar (RE.cls clsNameTail),
    rstar (RE.alt
      (RE.cat (rmore (RE.cls clsSpTab))
        (RE.alt (RE.cat (RE.cls clsUpperAZ) (rstar (RE.cls clsNameTail)))
          (raltStr ["of", "and", "the", "de", "la", "le", "du"])))
      (RE.cat (rmore (RE.cls clsSpTab)) (rmore rdig))),
    RE.wb]

/-- All-caps abbreviation: `\b[A-Z]{2,5}\b`. -/
def abbrevRe : RE :=
  rcat [RE.wb, rrep (RE.cls clsUpperAZ) 2 5, RE.wb]

/-- Alphanumeric abbreviation: `\b(?:\d+[A-Z]+|[A-Z]+\d+)\b`. -/
def alphaNumRe : RE :=
  rcat [RE.wb,
    RE.alt (RE.cat (rmore rdig) (rmore (RE.cls clsUpperAZ)))
      (RE.cat (rmore (RE.cls clsUpperAZ)) (rmore rdig)),
    RE.wb]

/-- Stock ticker: `\b(?:NYSE|NASDAQ|FTSE|S&P|DOW)(?::\s*|\s+)([A-Z]{1,5}|\d+)\b`. -/
def tickerRe : RE :=
  rcat [RE.wb, raltStr ["NYSE", "NASDAQ", "FTSE", "S&P", "DOW"],
    RE.alt (RE.cat (RE.chr ':') (rstar rsp)) (rmore rsp),
    RE.alt (rrep (RE.cls clsUpperAZ) 1 5) (rmore rdig), RE.wb]

/-- Context scan of stage 3: `\b[A-Z][a-z]+\b`. -/
def capsCtxRe : RE :=
  rcat [RE.wb, RE.cls clsUpperAZ, rmore (RE.cls clsLowerAZ), RE.wb]

/-! ### Restore-scan regexes of `restore_text` -/

/-- Class `[A-Z_]`. -/
def clsUpperUnd (c : Char) : Bool := inR 'A' 'Z' c ∨ c = '_'

/-- Class `[0-9a-f]`. -/
def clsHexLower (c : Char) : Bool := inR '0' '9' c ∨ inR 'a' 'f' c

/-- Opaque placeholder shape: `<[A-Z_]+_[0-9a-f]{8}>`. -/
def uuidRe : RE :=
  rcat [RE.chr '<', rmore (RE.cls clsUpperUnd), RE.chr '_',
    rexact (RE.cls clsHexLower) 8, RE.chr '>']

/-- Semantic alias shape: `\b[A-Z][A-Z_]+[A-Z]\b`. -/
def semanticRe : RE :=
  rcat [RE.wb, RE.cls clsUpperAZ, rmore (RE.cls clsUpperUnd),
    RE.cls clsUpperAZ, RE.wb]

/-! ### `SemanticAliasGenerator` (`src/utils/alias_generator.py`)

`random.choice` draws are modelled by the injected `rng` stream of indices:
each draw consumes one stream element and picks that index (mod pool size),
which ranges over exactly the choices Python's `random.choice` can make. -/

structure AliasGen where
  counters : List (String × Nat)
  used : List (String × List String)
  rng : List Nat

/-- A freshly constructed generator (`__init__`), with its randomness stream. -/
def freshGen (rng : List Nat) : AliasGen := ⟨[], [], rng⟩

/-- Source pool `company_prefixes`. -/
def companyPoolA : List String :=
  ["Acme", "Global", "Tech", "Digital", "Smart", "Mega", "Prime",
   "Alpha", "Beta", "Omega", "Nexus", "Quantum", "Cyber", "Dynamic"]

/-- Source pool `company_suffixes`. -/
def companyPoolB : List String :=
  ["Corp", "Inc", "LLC", "Industries", "Solutions", "Systems",
   "Technologies", "Enterprises", "Group", "Partners", "Ventures"]

/-- Source pool `first_names`. -/
def firstNamesPool : List String :=
  ["John", "Jane", "Michael", "Sarah", "David", "Emily",
   "Robert", "Lisa", "James", "Maria", "William", "Patricia",
   "Richard", "Jennifer", "Thomas", "Linda", "Charles", "Susan"]

/-- Source pool `last_names`. -/
def lastNamesPool : List String :=
  ["Smith", "Johnson", "Williams", "Brown", "Jones", "Garcia",
   "Miller", "Davis", "Rodriguez", "Martinez", "Wilson", "Anderson",
   "Taylor", "Thomas", "Moore", "Jackson", "Martin", "Lee"]

/-- Source pool `product_prefixes`. -/
def productPoolA : List String :=
  ["Pro", "Ultra", "Super", "Mega", "Premium", "Elite",
   "Advanced", "Smart", "Turbo", "Power", "Max", "Plus"]

/-- Source pool `product_types`. -/
def productPoolB : List String :=
  ["Suite", "Platform", "System", "Tool", "App", "Service",
   "Solution", "Engine", "Framework", "Hub", "Portal", "Cloud"]

/-- Python `random.choice(pool)`: one injected draw selects the element. -/
def pyChoice (pool : List String) (g : AliasGen) : String × AliasGen :=
  (pool.getD (g.rng.headD 0 % pool.length) "", { g with rng := g.rng.tail })

/-- Source `_get_counter`: get and increment the per-type counter. -/
def get_counter (g : AliasGen) (entity_type : String) : Nat × AliasGen :=
  match dictGet g.counters entity_type with
  | none => (1, { g with counters := dictSet g.counters entity_type 1 })
  | some n => (n + 1, { g with counters := dictSet g.counters entity_type (n + 1) })

/-- Candidate alias with a numeric disambiguating tail, Python
`f-string` `original_alias` underscore `counter`. -/
def candAlias (orig : String) (c : Nat) : String :=
  orig ++ "_" ++ decRepr c

/-- The `while alias in used` loop of `_ensure_unique`, fuel-driven; the fuel
passed by `ensure_unique` always suffices (`euGo_fresh`). -/
def euGo (S : List String) (orig : String) : Nat → Nat → String → String
  | 0, _, cur => cur
  | f + 1, c, cur => if cur ∈ S then euGo S orig f (c + 1) (candAlias orig c) else cur

/-- Source `_ensure_unique`: disambiguate against the per-type used-alias set
and record the result there. -/
def ensure_unique (alias0 entity_type : String) (g : AliasGen) : String × AliasGen :=
  let S := dictGetD g.used entity_type []
  let r := euGo S alias0 (S.length + 2) 1 alias0
  (r, { g with used := dictSet g.used entity_type (if r ∈ S then S else S ++ [r]) })

/-- Source `generate_company_name`. -/
def generate_company_name (g : AliasGen) : String × AliasGen :=
  let (a, g1) := pyChoice companyPoolA g
  let (b, g2) := pyChoice companyPoolB g1
  ensure_unique (pyUpper (a ++ "_" ++ b)) "COMPANY" g2

/-- Source `generate_person_name`. -/
def generate_person_name (g : AliasGen) : String × AliasGen :=
  let (a, g1) := pyChoice firstNamesPool g
  let (b, g2) := pyChoice lastNamesPool g1
  ensure_unique (pyUpper (a ++ "_" ++ b)) "PERSON" g2

/-- Source `generate_product_name`. -/
def generate_product_name (g : AliasGen) : String × AliasGen :=
  let (a, g1) := pyChoice productPoolA g
  let (b, g2) := pyChoice productPoolB g1
  ensure_unique (pyUpper (a ++ b)) "PRODUCT" g2

/-- Source `generate_location_name`: a bare counter, no uniqueness guard and
no recording into the used-alias sets. -/
def generate_location_name (g : AliasGen) : String × AliasGen :=
  let (c, g1) := get_counter g "LOCATION"
  ("LOCATION_" ++ decRepr c, g1)

/-- Source `generate_alias` (the `original_value` argument is accepted and
unused, as in source). -/
def generate_alias (g : AliasGen) (entity_type : String) (_original : String) :
    String × AliasGen :=
  let t := pyUpper entity_type
  if t ∈ ["ORG", "ORGANIZATION", "COMPANY"] then generate_company_name g
  else if t ∈ ["PERSON", "NAME", "PER"] then generate_person_name g
  else if t = "PRODUCT" then generate_product_name g
  else if t ∈ ["GPE", "LOCATION", "LOC"] then generate_location_name g
  else
    let (c, g1) := get_counter g t
    ensure_unique (t ++ "_" ++ decRepr c) t g1

/-! ### `PiiConfig` and `PIIManager` (`document_processor.py`) -/

/-- A named-entity span returned by the external NER capability
(`ent.text`, `ent.label_`, `ent.start_char`, `ent.end_char`). -/
structure SpacyEnt where
  text : String
  label : String
  start : Nat
  stop : Nat

structure PiiConfig where
  patterns : List (String × RE)
  entity_type_mapping : List (String × String)

/-- Source `entity_type_mapping`. -/
def defaultEntityTypeMapping : List (String × String) :=
  [("PERSON", "NAME"), ("PER", "NAME"), ("PERSON_NAME", "NAME"),
   ("ORG", "ORGANIZATION"), ("GPE", "LOCATION"), ("LOC", "LOCATION"),
   ("PHONE_NUMBER", "PHONE")]

/-- `PiiConfig.__init__`: default patterns updated with the caller's custom
patterns (`dict.update`: override in place, append new keys). -/
def mkPiiConfig (custom : List (String × RE)) : PiiConfig :=
  { patterns := custom.foldl (fun m kv => dictSet m kv.1 kv.2) defaultPatterns,
    entity_type_mapping := defaultEntityTypeMapping }

/-- `PIIManager` state.  `nlp` models the loaded spaCy pipeline as an oracle
from a text to its `doc.ents`; `hexes` models the `uuid4().hex[:8]` draws. -/
structure Manager where
  config : PiiConfig
  pii_map : List (String × String)
  reverse_map : List (String × String)
  use_semantic_aliases : Bool
  alias_generator : Option AliasGen
  use_ner : Bool
  nlp : Option (String → List SpacyEnt)
  hexes : List String

/-- `PIIManager.__init__`: empty maps, a fresh generator when semantic
aliasing is on, `use_ner` true exactly when the model loaded. -/
def mkManager (cfg : PiiConfig) (useSem : Bool) (rng : List Nat)
    (nlp : Option (String → List SpacyEnt)) (hexes : List String) : Manager :=
  { config := cfg, pii_map := [], reverse_map := [],
    use_semantic_aliases := useSem,
    alias_generator := if useSem then some (freshGen rng) else none,
    use_ner := nlp.isSome, nlp := nlp, hexes := hexes }

/-! #### `_detect_entities_with_ner` stage by stage -/

/-- Accumulated entities and the claimed-span set (`detected_spans`). -/
structure NerAcc where
  ents : List (String × String × Nat × Nat)
  claimed : List (Nat × Nat)

/-- Source `single_word_blacklist` of step 2. -/
def singleWordBlacklist : List String :=
  ["The", "A", "An", "And", "Or", "But", "For", "To", "Of", "In", "On", "At",
   "By", "With", "From", "As", "Is", "Was", "Are", "Were", "Be", "Been",
   "He", "She", "It", "They", "We", "I", "You", "This", "That", "These",
   "Those", "Have", "Has", "Had", "Do", "Does", "Did", "Will", "Would",
   "Could", "Should", "Can", "May", "Might", "Must", "Shall"]

/-- Product-style keywords of step 2. -/
def productKeywords : List String :=
  ["Suite", "Platform", "System", "Tool", "App", "Service", "Solution",
   "Engine", "Framework", "Hub", "Portal", "Cloud", "Pro", "Ultra",
   "Premium", "Plus", "Advanced", "Elite", "Mega", "Super", "Max", "Turbo",
   "Power", "Smart"]

/-- Organization-style keywords of step 2 (the duplicate is in source). -/
def orgKeywords : List String :=
  ["Inc", "LLC", "Corp", "Corporation", "Ltd", "Limited", "Group",
   "Industries", "Solutions", "Systems", "Technologies", "Enterprises",
   "Partners", "Ventures", "Company", "Enterprises", "Associates"]

/-- Location keywords of step 2. -/
def locationKeywords : List String :=
  ["America", "Europe", "Asia", "Africa", "North", "South", "East", "West",
   "City", "Town", "Island", "Mountain", "River", "Lake", "Valley"]

/-- Source `COMMON_WORDS_BLACKLIST` of step 3. -/
def commonWordsBlacklist : List String :=
  ["OK", "AM", "PM", "OR", "IF", "IS", "AS", "AT", "WE", "NO"]

/-- Source `org_indicators` of step 3. -/
def orgIndicators : List String :=
  ["Inc", "LLC", "Corp", "Ltd", "Limited", "Group", "Industries",
   "Solutions", "Systems", "Technologies", "Enterprises", "Company"]

/-- Step 1: spaCy entities with the interesting labels, line-break spans
dropped, labels normalized via `entity_type_mapping`, spans claimed. -/
def nerStage1 (mapping : List (String × String)) :
    List SpacyEnt → NerAcc → NerAcc
  | [], acc => acc
  | e :: rest, acc =>
      if e.label ∈ ["PERSON", "ORG", "PRODUCT", "GPE"] then
        if '\n' ∈ e.text.data ∨ '\r' ∈ e.text.data then nerStage1 mapping rest acc
        else
          let et := dictGetD mapping e.label e.label
          nerStage1 mapping rest
            ⟨acc.ents ++ [(e.text, et, e.start, e.stop)],
             acc.claimed ++ [(e.start, e.stop)]⟩
      else nerStage1 mapping rest acc

/-- Step 2 classification heuristic, the `entity_type` if/elif chain. -/
def classifyProperNoun (mt : String) : String :=
  if productKeywords.any (fun k => pyContains mt k) then "PRODUCT"
  else if orgKeywords.any (fun k => pyContains mt k) then "ORGANIZATION"
  else if ' ' ∈ mt.data then
    let words := pySplitWs mt
    if words.length = 2 ∧
        (words.filter (fun w => w.length > 1)).all
          (fun w => pyIsUpperChar (w.data.headD ' ') ∧ pyIsLower ⟨w.data.tail⟩) then
      "NAME"
    else if locationKeywords.any (fun k => words.contains k) then "LOCATION"
    else "ORGANIZATION"
  else if ¬ ' ' ∈ mt.data then
    if mt.length = 2 ∧ pyIsUpper mt then "LOCATION" else "ORGANIZATION"
  else "ORGANIZATION"

/-- Step 2: proper-noun runs over unclaimed spans, with the single-word
filters of the source. -/
def nerStage2 (text : String) : List (Nat × Nat) → NerAcc → NerAcc
  | [], acc => acc
  | (s, t) :: rest, acc =>
      if (s, t) ∈ acc.claimed then nerStage2 text rest acc
      else
        let mt := strSlice text s t
        if ¬ ' ' ∈ mt.data ∧ mt ∈ singleWordBlacklist then nerStage2 text rest acc
        else if ¬ ' ' ∈ mt.data ∧ mt.length ≤ 2 ∧
            ¬ mt.data.any (fun c => c = '\xc0' ∨ c = '-' ∨ c = '\xff') then
          nerStage2 text rest acc
        else
          nerStage2 text rest
            ⟨acc.ents ++ [(mt, classifyProperNoun mt, s, t)],
             acc.claimed ++ [(s, t)]⟩

/-- Step 3: all-caps abbreviations over unclaimed spans with the common-word
blacklist and the context filter for `US`/`IT`/`AI`. -/
def nerStage3 (text : String) : List (Nat × Nat) → NerAcc → NerAcc
  | [], acc => acc
  | (s, t) :: rest, acc =>
      if (s, t) ∈ acc.claimed then nerStage3 text rest acc
      else
        let mt := strSlice text s t
        if mt ∈ commonWordsBlacklist then nerStage3 text rest acc
        else
          let ctx := strSlice text (s - 30) s ++
            strSlice text t (min text.length (t + 30))
          let hasOrg := orgIndicators.any fun k => pyContains ctx k
          let hasCaps := reSearch capsCtxRe ctx
          if mt ∈ ["US", "IT", "AI"] ∧ ¬ (hasOrg ∨ hasCaps) then
            nerStage3 text rest acc
          else
            nerStage3 text rest
              ⟨acc.ents ++ [(mt, "ORGANIZATION", s, t)],
               acc.claimed ++ [(s, t)]⟩

/-- Step 4: alphanumeric abbreviations over unclaimed spans. -/
def nerStage4 (text : String) : List (Nat × Nat) → NerAcc → NerAcc
  | [], acc => acc
  | (s, t) :: rest, acc =>
      if (s, t) ∈ acc.claimed then nerStage4 text rest acc
      else
        nerStage4 text rest
          ⟨acc.ents ++ [(strSlice text s t, "ORGANIZATION", s, t)],
           acc.claimed ++ [(s, t)]⟩

/-- Step 5: exchange-prefixed ticker shapes over unclaimed spans. -/
def nerStage5 (text : String) : List (Nat × Nat) → NerAcc → NerAcc
  | [], acc => acc
  | (s, t) :: rest, acc =>
      if (s, t) ∈ acc.claimed then nerStage5 text rest acc
      else
        nerStage5 text rest
          ⟨acc.ents ++ [(strSlice text s t, "ORGANIZATION", s, t)],
           acc.claimed ++ [(s, t)]⟩

/-- Source `_detect_entities_with_ner`: all five stages in order, sharing the
claimed-span set. -/
def detect_entities_with_ner (m : Manager) (text : String) :
    List (String × String × Nat × Nat) :=
  match m.nlp with
  | none => []
  | some nlpF =>
      if m.use_ner then
        let acc1 := nerStage1 m.config.entity_type_mapping (nlpF text) ⟨[], []⟩
        let acc2 := nerStage2 text (findIter properNounRe text) acc1
        let acc3 := nerStage3 text (findIter abbrevRe text) acc2
        let acc4 := nerStage4 text (findIter alphaNumRe text) acc3
        let acc5 := nerStage5 text (findIter tickerRe text) acc4
        acc5.ents
      else []

/-! #### Placeholder allocation and detection -/

/-- An opaque placeholder, source f-string `<TYPE_hex8>`; one injected hex
draw is consumed. -/
def mkUuidPlaceholder (m : Manager) (pii_type : String) : String × Manager :=
  ("<" ++ pii_type ++ "_" ++ m.hexes.headD "00000000" ++ ">",
   { m with hexes := m.hexes.tail })

/-- Source `_create_placeholder`. -/
def create_placeholder (m : Manager) (original pii_type : String) :
    String × Manager :=
  match dictGet m.pii_map original with
  | some p => (p, m)
  | none =>
      let pm :=
        match m.use_semantic_aliases, m.alias_generator with
        | true, some g =>
            if pii_type ∈ ["ORGANIZATION", "PERSON", "NAME", "PRODUCT", "LOCATION"] then
              let ag := generate_alias g pii_type original
              (ag.1, { m with alias_generator := some ag.2 })
            else mkUuidPlaceholder m pii_type
        | _, _ => mkUuidPlaceholder m pii_type
      (pm.1,
       { pm.2 with pii_map := dictSet pm.2.pii_map original pm.1,
                   reverse_map := dictSet pm.2.reverse_map pm.1 original })

/-- The inner loop of the regex part of `detect_pii_in_text`: one pattern,
all its matches. -/
def patMatchLoop : Manager → String → String → List (Nat × Nat) →
    (List (String × String × String)) × Manager
  | m, _, _, [] => ([], m)
  | m, text, pt, (s, t) :: rest =>
      let original := strSlice text s t
      let pm := create_placeholder m original pt
      let dm := patMatchLoop pm.2 text pt rest
      ((original, pt, pm.1) :: dm.1, dm.2)

/-- The outer loop of the regex part of `detect_pii_in_text`: every pattern
of the catalog in insertion order. -/
def patLoop : Manager → String → List (String × RE) →
    (List (String × String × String)) × Manager
  | m, _, [] => ([], m)
  | m, text, (pt, r) :: rest =>
      let dm1 := patMatchLoop m text pt (findIter r text)
      let dm2 := patLoop dm1.2 text rest
      (dm1.1 ++ dm2.1, dm2.2)

/-- The NER part of `detect_pii_in_text`: entities shorter than 2 characters
after stripping are skipped, the rest are allocated placeholders. -/
def entLoop : Manager → List (String × String × Nat × Nat) →
    (List (String × String × String)) × Manager
  | m, [] => ([], m)
  | m, (etext, etype, _, _) :: rest =>
      if (pyStrip etext).length < 2 then entLoop m rest
      else
        let pm := create_placeholder m etext etype
        let dm := entLoop pm.2 rest
        ((etext, etype, pm.1) :: dm.1, dm.2)

/-- Source `detect_pii_in_text` on a string input. -/
def detect_pii_in_text (m : Manager) (text : String) :
    (List (String × String × String)) × Manager :=
  let dm1 := patLoop m text m.config.patterns
  if dm1.2.use_ner then
    let es := detect_entities_with_ner dm1.2 text
    let dm2 := entLoop dm1.2 es
    (dm1.1 ++ dm2.1, dm2.2)
  else dm1

/-! #### Sorting (Python `list.sort`) -/

/-- Code-point lexicographic order on character lists (Python string `<`). -/
def listLtC : List Char → List Char → Bool
  | [], [] => false
  | [], _ :: _ => true
  | _ :: _, [] => false
  | a :: as, b :: bs => a < b ∨ (a = b ∧ listLtC as bs)

/-- Python string comparison. -/
def strLtB (a b : String) : Bool := listLtC a.data b.data

/-- Python tuple comparison on `(int, str, str)` triples. -/
def tripLtB (a b : Int × String × String) : Bool :=
  a.1 < b.1 ∨ (a.1 = b.1 ∧ (strLtB a.2.1 b.2.1 ∨
    (a.2.1 = b.2.1 ∧ strLtB a.2.2 b.2.2)))

/-- Stable insertion: place `x` before the first element it must precede. -/
def insBefore {α : Type} (lt : α → α → Bool) (x : α) : List α → List α
  | [] => [x]
  | y :: ys => if lt x y then x :: y :: ys else y :: insBefore lt x ys

/-- Stable sort by a strict precedence test (models Python's stable sort on
the orders used here). -/
def insSortBy {α : Type} (lt : α → α → Bool) (l : List α) : List α :=
  l.foldl (fun acc y => insBefore lt y acc) []

/-! #### `anonymize_text`, `restore_text`, persistence, statistics -/

/-- Source `anonymize_text` on a string input: detections keyed by first
occurrence, sorted descending (Python tuple order, `reverse=True`), then
value-keyed global replacement. -/
def anonymize_text (m : Manager) (text : String) : String × Manager :=
  let dm := detect_pii_in_text m text
  let text_indices := dm.1.map fun d => ((pyFind text d.1 : Int), d.1, d.2.2)
  let sorted := insSortBy (fun a b => tripLtB b a) text_indices
  (sorted.foldl (fun acc d => pyReplace acc d.2.1 d.2.2) text, dm.2)

/-- The placeholder scan of `restore_text`: matches of both placeholder
shapes, sorted by start position descending. -/
def restoreScan (s : String) : List ((Nat × Nat) × String) :=
  let ms := (findIter uuidRe s).map (fun sp => (sp, strSlice s sp.1 sp.2)) ++
    (findIter semanticRe s).map (fun sp => (sp, strSlice s sp.1 sp.2))
  insSortBy (fun a b => decide (b.1.1 < a.1.1)) ms

/-- Source `restore_text` on a string input: splice the original value over
each scanned span whose token is a key of the reverse map; unmapped tokens
are left alone. -/
def restore_text (m : Manager) (s : String) : String :=
  (restoreScan s).foldl
    (fun acc msp =>
      match dictGet m.reverse_map msp.2 with
      | some original =>
          ⟨acc.data.take msp.1.1⟩ ++ original ++ ⟨acc.data.drop msp.1.2⟩
      | none => acc) s

/-- Source `save_mapping` serializes exactly the two maps. -/
def save_mapping (m : Manager) :
    (List (String × String)) × (List (String × String)) :=
  (m.pii_map, m.reverse_map)

/-- Source `load_mapping` replaces the two maps wholesale (allocator state is
untouched). -/
def load_mapping (m : Manager)
    (file : (List (String × String)) × (List (String × String))) : Manager :=
  { m with pii_map := file.1, reverse_map := file.2 }

/-- Type prefix parsed out of a placeholder by `get_statistics`:
`placeholder.split(underscore)[0].strip(angle)`. -/
def parsePlaceholderType (p : String) : String :=
  pyStripChar ⟨p.data.takeWhile (· ≠ '_')⟩ '<'

/-- Source `get_statistics`: per-type counts over the reverse map, then the
`TOTAL` entry set to the forward map's size. -/
def get_statistics (m : Manager) : List (String × Nat) :=
  let stats := m.reverse_map.foldl
    (fun st pr =>
      let t := parsePlaceholderType pr.1
      dictSet st t (dictGetD st t 0 + 1)) []
  dictSet stats "TOTAL" m.pii_map.length

/-! #### Python-value wrappers (the `isinstance(text, str)` guards) -/

/-- A Python value as passed to the text operations. -/
inductive PyVal where
  | pstr : String → PyVal
  | pint : Int → PyVal
  | pbool : Bool → PyVal
  | pnone : PyVal

/-- Python truth of being a `str`. -/
def PyVal.isStr : PyVal → Bool
  | PyVal.pstr _ => true
  | _ => false

/-- `detect_pii_in_text` including its non-string guard. -/
def detect_pii_in_text_v (m : Manager) : PyVal →
    (List (String × String × String)) × Manager
  | PyVal.pstr s => detect_pii_in_text m s
  | _ => ([], m)

/-- `anonymize_text` including its non-string guard. -/
def anonymize_text_v (m : Manager) : PyVal → PyVal × Manager
  | PyVal.pstr s =>
      let rm := anonymize_text m s
      (PyVal.pstr rm.1, rm.2)
  | x => (x, m)

/-- `restore_text` including its non-string guard (it never mutates state). -/
def restore_text_v (m : Manager) : PyVal → PyVal
  | PyVal.pstr s => PyVal.pstr (restore_text m s)
  | x => x

/-! ### Specification-side predicates -/

/-- Word-boundary-matched, case-sensitive occurrence of `v` inside `s`
(the leakage notion of the spec, case-sensitive variant). -/
def occursWordCS (v s : String) : Bool :=
  (List.range (s.length + 1)).any fun i =>
    decide (strSlice s i (i + v.length) = v) &&
      wordBoundaryAt s.data i && wordBoundaryAt s.data (i + v.length)

/-- Word-boundary-matched, case-insensitive occurrence of `v` inside `s`
(the leakage notion of the spec as frozen in the claim). -/
def occursWordCI (v s : String) : Bool :=
  occursWordCS (pyLower v) (pyLower s)

/-- Two half-open spans overlap. -/
def spansOverlap (a b : Nat × Nat) : Bool :=
  a.1 < b.2 ∧ b.1 < a.2

/-- The placeholder of a pair shares no character with `v` (the
non-interference hypothesis of the corrected no-leakage claim). -/
def charsDisj (p v : String) : Prop :=
  ∀ c ∈ p.data, c ∉ v.data

/-- The forward and reverse maps are mutual inverses. -/
def MutualInverse (m : Manager) : Prop :=
  (∀ o p, dictGet m.pii_map o = some p → dictGet m.reverse_map p = some o) ∧
  (∀ p o, dictGet m.reverse_map p = some o → dictGet m.pii_map o = some p)

/-- Sum of the statistics counts other than the `TOTAL` entry. -/
def sumOthers : List (String × Nat) → Nat
  | [] => 0
  | (k, v) :: rest => (if k = "TOTAL" then 0 else v) + sumOthers rest

/-! ### Association-list lemmas -/

theorem dictGet_dictSet_self {α : Type} (m : List (String × α)) (k : String) (v : α) :
    dictGet (dictSet m k v) k = some v := by
  induction m with
  | nil => simp [dictSet, dictGet]
  | cons pr rest ih =>
      cases pr with
      | mk a b =>
          by_cases h : a = k
          · simp [dictSet, dictGet, h]
          · simp only [dictSet, if_neg h, dictGet]
            exact ih

theorem dictGet_dictSet_ne {α : Type} (m : List (String × α)) {k k' : String} (v : α)
    (h : k ≠ k') : dictGet (dictSet m k v) k' = dictGet m k' := by
  induction m with
  | nil => simp [dictSet, dictGet, h]
  | cons pr rest ih =>
      by_cases hk : pr.1 = k
      · cases pr with
        | mk a b =>
            simp only at hk
            simp [dictSet, dictGet, hk, h]
      · cases pr with
        | mk a b =>
            simp only at hk
            simp only [dictSet, hk, if_false, dictGet]
            by_cases ha : a = k'
            · simp [ha]
            · simp [ha, ih]

theorem dictSet_length_of_mem {α : Type} (m : List (String × α)) {k : String} (v : α)
    (h : (dictGet m k).isSome) : (dictSet m k v).length = m.length := by
  induction m with
  | nil => simp [dictGet] at h
  | cons pr rest ih =>
      cases pr with
      | mk a b =>
          by_cases ha : a = k
          · simp [dictSet, ha]
          · simp only [dictGet, ha, if_false] at h
            simp [dictSet, ha, ih h]

theorem dictSet_length_of_not_mem {α : Type} (m : List (String × α)) {k : String} (v : α)
    (h : dictGet m k = none) : (dictSet m k v).length = m.length + 1 := by
  induction m with
  | nil => simp [dictSet]
  | cons pr rest ih =>
      cases pr with
      | mk a b =>
          by_cases ha : a = k
          · simp [dictGet, ha] at h
          · simp only [dictGet, ha, if_false] at h
            simp [dictSet, ha, ih h]

/-! ### Lemmas about `repAll` (Python `str.replace`) -/

theorem repAllF_fuel_congr (v p : List Char) :
    ∀ f g s, s.length ≤ f → s.length ≤ g →
      repAllF v p f s = repAllF v p g s := by
  intro f
  induction f with
  | zero =>
      intro g s hf _
      have : s = [] := List.length_eq_zero.mp (Nat.le_zero.mp hf)
      subst this
      cases g with
      | zero => rfl
      | succ g =>
          by_cases hv : v ≠ [] ∧ v.isPrefixOf ([] : List Char)
          · have := List.isPrefixOf_iff_prefix.mp hv.2
            have := List.prefix_nil.mp this
            exact absurd this hv.1
          · simp [repAllF, hv]
  | succ f ih =>
      intro g s hf hg
      cases s with
      | nil =>
          cases g with
          | zero => simp [repAllF]
          | succ g =>
              by_cases hv : v ≠ [] ∧ v.isPrefixOf ([] : List Char)
              · have := List.isPrefixOf_iff_prefix.mp hv.2
                have := List.prefix_nil.mp this
                exact absurd this hv.1
              · simp [repAllF, hv]
      | cons c t =>
          have hg1 : 0 < g := by
            simp only [List.length_cons] at hg; omega
          obtain ⟨g', rfl⟩ : ∃ g', g = g' + 1 := ⟨g - 1, by omega⟩
          by_cases hv : v ≠ [] ∧ v.isPrefixOf (c :: t)
          · simp only [repAllF, if_pos hv]
            congr 1
            have hlen : ((c :: t).drop v.length).length ≤ f := by
              have hv1 : 1 ≤ v.length := by
                cases v with
                | nil => exact absurd rfl hv.1
                | cons _ _ => simp
              simp only [List.length_drop, List.length_cons] at *
              omega
            have hlen' : ((c :: t).drop v.length).length ≤ g' := by
              have hv1 : 1 ≤ v.length := by
                cases v with
                | nil => exact absurd rfl hv.1
                | cons _ _ => simp
              simp only [List.length_drop, List.length_cons] at *
              omega
            exact ih g' _ hlen hlen'
          · simp only [repAllF, if_neg hv]
            congr 1
            have hlen : t.length ≤ f := by
              simp only [List.length_cons] at hf; omega
            have hlen' : t.length ≤ g' := by
              simp only [List.length_cons] at hg; omega
            exact ih g' t hlen hlen'

theorem repAll_nil (v p : List Char) : repAll v p [] = [] := rfl

theorem repAll_pos {v : List Char} (p : List Char) {s : List Char}
    (hv : v ≠ []) (hpre : v <+: s) :
    repAll v p s = p ++ repAll v p (s.drop v.length) := by
  have hs : s ≠ [] := by
    intro h
    subst h
    exact hv (List.prefix_nil.mp hpre)
  obtain ⟨c, t, rfl⟩ : ∃ c t, s = c :: t := by
    cases s with
    | nil => exact absurd rfl hs
    | cons c t => exact ⟨c, t, rfl⟩
  have hcond : v ≠ [] ∧ v.isPrefixOf (c :: t) :=
    ⟨hv, List.isPrefixOf_iff_prefix.mpr hpre⟩
  show repAllF v p (c :: t).length (c :: t) = _
  simp only [List.length_cons, repAllF, if_pos hcond]
  congr 1
  apply repAllF_fuel_congr
  · have hv1 : 1 ≤ v.length := by
      cases v with
      | nil => exact absurd rfl hv
      | cons _ _ => simp
    simp only [List.length_drop, List.length_cons]
    omega
  · exact Nat.le_refl _

theorem repAll_neg {v : List Char} (p : List Char) {c : Char} {t : List Char}
    (h : ¬ (v ≠ [] ∧ v <+: (c :: t))) :
    repAll v p (c :: t) = c :: repAll v p t := by
  have hcond : ¬ (v ≠ [] ∧ v.isPrefixOf (c :: t)) := by
    intro hc
    exact h ⟨hc.1, List.isPrefixOf_iff_prefix.mp hc.2⟩
  show repAllF v p (c :: t).length (c :: t) = _
  simp only [List.length_cons, repAllF, if_neg hcond]
  rfl

/-- A list sharing no character with `p` that is a prefix of a replacement
output is a prefix of the input: occurrences in the output that start on a
copied character stay inside copied text. -/
theorem prefix_repAll_of_disj {w p : List Char} (hp : p ≠ []) :
    ∀ (n : Nat) (s u : List Char), s.length ≤ n → (∀ c ∈ u, c ∉ p) →
      u <+: repAll w p s → u <+: s := by
  intro n
  induction n with
  | zero =>
      intro s u hle _ h
      have hs : s = [] := List.length_eq_zero.mp (Nat.le_zero.mp hle)
      subst hs
      rw [repAll_nil] at h
      exact h
  | succ n ih =>
      intro s u hle hdisj h
      cases s with
      | nil =>
          rw [repAll_nil] at h
          exact h
      | cons c t =>
          by_cases hcond : w ≠ [] ∧ w <+: (c :: t)
          · rw [repAll_pos p hcond.1 hcond.2] at h
            cases u with
            | nil => exact List.nil_prefix
            | cons d u' =>
                obtain ⟨q, p', rfl⟩ : ∃ q p', p = q :: p' := by
                  cases p with
                  | nil => exact absurd rfl hp
                  | cons q p' => exact ⟨q, p', rfl⟩
                have hd : d = q := (List.cons_prefix_cons.mp h).1
                have hq : d ∈ q :: p' := hd ▸ List.mem_cons_self q p'
                exact absurd hq (hdisj d (List.mem_cons_self d u'))
          · rw [repAll_neg p hcond] at h
            cases u with
            | nil => exact List.nil_prefix
            | cons d u' =>
                have hdc := List.cons_prefix_cons.mp h
                have hlen : t.length ≤ n := by
                  simp only [List.length_cons] at hle; omega
                have hu' : u' <+: t :=
                  ih t u' hlen (fun x hx => hdisj x (List.mem_cons_of_mem d hx)) hdc.2
                exact List.cons_prefix_cons.mpr ⟨hdc.1, hu'⟩

theorem prefix_append_cases {α : Type} {u x y : List α} (h : u <+: x ++ y) :
    u <+: x ∨ ∃ b, u = x ++ b ∧ b <+: y := by
  induction x generalizing u with
  | nil => exact Or.inr ⟨u, by simp, by simpa using h⟩
  | cons c x' ih =>
      cases u with
      | nil => exact Or.inl List.nil_prefix
      | cons d u' =>
          rw [List.cons_append] at h
          have hdc := List.cons_prefix_cons.mp h
          rcases ih hdc.2 with h1 | ⟨b, hb1, hb2⟩
          · exact Or.inl (List.cons_prefix_cons.mpr ⟨hdc.1, h1⟩)
          · exact Or.inr ⟨b, by rw [List.cons_append, ← hb1, hdc.1], hb2⟩

theorem infix_append_cases {α : Type} {v x y : List α} (h : v <:+: x ++ y) :
    v <:+: x ∨ v <:+: y ∨
      ∃ a b, v = a ++ b ∧ a ≠ [] ∧ b ≠ [] ∧ a <:+ x ∧ b <+: y := by
  induction x generalizing v with
  | nil => exact Or.inr (Or.inl (by simpa using h))
  | cons c x' ih =>
      rw [List.cons_append] at h
      rcases List.infix_cons_iff.mp h with h1 | h2
      · cases v with
        | nil => exact Or.inl List.nil_infix
        | cons d v' =>
            have hdc := List.cons_prefix_cons.mp h1
            rcases prefix_append_cases hdc.2 with hp | ⟨b, hb1, hb2⟩
            · exact Or.inl (List.IsPrefix.isInfix
                (List.cons_prefix_cons.mpr ⟨hdc.1, hp⟩))
            · cases b with
              | nil =>
                  refine Or.inl (List.IsPrefix.isInfix ?_)
                  have : v' = x' := by simpa using hb1
                  exact List.cons_prefix_cons.mpr ⟨hdc.1, this ▸ List.prefix_rfl⟩
              | cons e b' =>
                  refine Or.inr (Or.inr ⟨c :: x', e :: b', ?_, by simp, by simp,
                    hdc.1 ▸ List.suffix_rfl, hb2⟩)
                  rw [List.cons_append, ← hb1, hdc.1]
      · rcases ih h2 with h1 | h1 | ⟨a, b, ha1, ha2, ha3, ha4, ha5⟩
        · exact Or.inl (List.infix_cons h1)
        · exact Or.inr (Or.inl h1)
        · refine Or.inr (Or.inr ⟨a, b, ha1, ha2, ha3, ?_, ha5⟩)
          obtain ⟨t0, ht0⟩ := ha4
          exact ⟨c :: t0, by rw [List.cons_append, ht0]⟩

/-- After replacing `v` by a placeholder sharing no character with it, `v` is
not a substring of the result. -/
theorem not_infix_repAll_self {v p : List Char} (hv : v ≠ []) (hp : p ≠ [])
    (hdisj : ∀ c ∈ p, c ∉ v) :
    ∀ (n : Nat) (s : List Char), s.length ≤ n → ¬ v <:+: repAll v p s := by
  intro n
  induction n with
  | zero =>
      intro s hle h
      have hs : s = [] := List.length_eq_zero.mp (Nat.le_zero.mp hle)
      subst hs
      rw [repAll_nil] at h
      exact hv (List.eq_nil_of_infix_nil h)
  | succ n ih =>
      intro s hle h
      cases s with
      | nil =>
          rw [repAll_nil] at h
          exact hv (List.eq_nil_of_infix_nil h)
      | cons c t =>
          by_cases hcond : v <+: (c :: t)
          · rw [repAll_pos p hv hcond] at h
            rcases infix_append_cases h with h1 | h2 | ⟨a, b, heq, ha, _, hsfx, _⟩
            · obtain ⟨d, hd⟩ := List.exists_mem_of_ne_nil v hv
              exact hdisj d (h1.subset hd) hd
            · have hv1 : 1 ≤ v.length := by
                cases v with
                | nil => exact absurd rfl hv
                | cons _ _ => simp
              have hlen : ((c :: t).drop v.length).length ≤ n := by
                simp only [List.length_drop, List.length_cons] at *
                omega
              exact ih _ hlen h2
            · obtain ⟨d, hd⟩ := List.exists_mem_of_ne_nil a ha
              have hdp : d ∈ p := hsfx.subset hd
              have hdv : d ∈ v := heq ▸ List.mem_append_left b hd
              exact hdisj d hdp hdv
          · rw [repAll_neg p (by tauto)] at h
            rcases List.infix_cons_iff.mp h with h1 | h2
            · cases v with
              | nil => exact hv rfl
              | cons d v' =>
                  have hdc := List.cons_prefix_cons.mp h1
                  have hv' : v' <+: t :=
                    prefix_repAll_of_disj hp t.length t v' (Nat.le_refl _)
                      (fun x hx hxp =>
                        hdisj x hxp (List.mem_cons_of_mem d hx)) hdc.2
                  exact hcond (List.cons_prefix_cons.mpr ⟨hdc.1, hv'⟩)
            · have hlen : t.length ≤ n := by
                simp only [List.length_cons] at hle; omega
              exact ih t hlen h2

/-- Replacing any value by a placeholder sharing no character with `v`
introduces no new occurrence of `v`. -/
theorem infix_repAll_of_disj {w v p : List Char} (hv : v ≠ []) (hp : p ≠ [])
    (hdisj : ∀ c ∈ p, c ∉ v) :
    ∀ (n : Nat) (s : List Char), s.length ≤ n →
      v <:+: repAll w p s → v <:+: s := by
  intro n
  induction n with
  | zero =>
      intro s hle h
      have hs : s = [] := List.length_eq_zero.mp (Nat.le_zero.mp hle)
      subst hs
      rwa [repAll_nil] at h
  | succ n ih =>
      intro s hle h
      cases s with
      | nil => rwa [repAll_nil] at h
      | cons c t =>
          by_cases hcond : w ≠ [] ∧ w <+: (c :: t)
          · rw [repAll_pos p hcond.1 hcond.2] at h
            rcases infix_append_cases h with h1 | h2 | ⟨a, b, heq, ha, _, hsfx, _⟩
            · obtain ⟨d, hd⟩ := List.exists_mem_of_ne_nil v hv
              exact absurd hd (hdisj d (h1.subset hd))
            · have hw1 : 1 ≤ w.length := by
                cases w with
                | nil => exact absurd rfl hcond.1
                | cons _ _ => simp
              have hlen : ((c :: t).drop w.length).length ≤ n := by
                simp only [List.length_drop, List.length_cons] at *
                omega
              have h3 := ih _ hlen h2
              exact h3.trans (List.drop_suffix w.length (c :: t)).isInfix
            · obtain ⟨d, hd⟩ := List.exists_mem_of_ne_nil a ha
              have hdp : d ∈ p := hsfx.subset hd
              have hdv : d ∈ v := heq ▸ List.mem_append_left b hd
              exact absurd hdv (hdisj d hdp)
          · rw [repAll_neg p hcond] at h
            rcases List.infix_cons_iff.mp h with h1 | h2
            · cases v with
              | nil => exact absurd rfl hv
              | cons d v' =>
                  have hdc := List.cons_prefix_cons.mp h1
                  have hv' : v' <+: t :=
                    prefix_repAll_of_disj hp t.length t v' (Nat.le_refl _)
                      (fun x hx hxp =>
                        hdisj x hxp (List.mem_cons_of_mem d hx)) hdc.2
                  exact (List.cons_prefix_cons.mpr ⟨hdc.1, hv'⟩).isInfix
            · have hlen : t.length ≤ n := by
                simp only [List.length_cons] at hle; omega
              exact (ih t hlen h2).trans (List.infix_cons (List.infix_rfl))

/-! ### The replacement pass of `anonymize_text` never leaves a detected value
behind (case-sensitively), under character-disjoint placeholders -/

theorem pyReplace_data (s v p : String) :
    (pyReplace s v p).data = repAll v.data p.data s.data := rfl

/-- Replacement steps with placeholders character-disjoint from `v` preserve
absence of `v`. -/
theorem not_infix_anonFold {v : String} (hv : v.data ≠ []) :
    ∀ (L : List (Int × String × String)) (acc : String),
      (∀ d ∈ L, d.2.2.data ≠ [] ∧ ∀ c ∈ d.2.2.data, c ∉ v.data) →
      ¬ v.data <:+: acc.data →
      ¬ v.data <:+: (L.foldl (fun acc d => pyReplace acc d.2.1 d.2.2) acc).data := by
  intro L
  induction L with
  | nil => intro acc _ hacc; exact hacc
  | cons d L ih =>
      intro acc hL hacc
      have hd := hL d (List.mem_cons_self d L)
      have hstep : ¬ v.data <:+: (pyReplace acc d.2.1 d.2.2).data := by
        rw [pyReplace_data]
        intro h
        exact hacc (infix_repAll_of_disj hv hd.1 hd.2 acc.data.length acc.data
          (Nat.le_refl _) h)
      exact ih (pyReplace acc d.2.1 d.2.2)
        (fun e he => hL e (List.mem_cons_of_mem d he)) hstep

/-- Once the pass reaches the pair of `v` itself, `v` is eliminated and stays
eliminated through the remaining, character-disjoint replacements. -/
theorem not_infix_anonFold_mem {v : String} (hv : v.data ≠ []) :
    ∀ (L : List (Int × String × String)) (acc : String),
      (∃ i p, ((i, v, p) : Int × String × String) ∈ L) →
      (∀ d ∈ L, d.2.2.data ≠ [] ∧ ∀ c ∈ d.2.2.data, c ∉ v.data) →
      ¬ v.data <:+: (L.foldl (fun acc d => pyReplace acc d.2.1 d.2.2) acc).data := by
  intro L
  induction L with
  | nil =>
      intro acc hmem _
      obtain ⟨i, p, hm⟩ := hmem
      exact absurd hm (List.not_mem_nil _)
  | cons d L ih =>
      intro acc hmem hL
      by_cases hdv : d.2.1 = v
      · have hd := hL d (List.mem_cons_self d L)
        have hstep : ¬ v.data <:+: (pyReplace acc d.2.1 d.2.2).data := by
          rw [pyReplace_data, hdv]
          exact not_infix_repAll_self hv hd.1 hd.2 acc.data.length acc.data
            (Nat.le_refl _)
        exact not_infix_anonFold hv L (pyReplace acc d.2.1 d.2.2)
          (fun e he => hL e (List.mem_cons_of_mem d he)) hstep
      · obtain ⟨i, p, hm⟩ := hmem
        rcases List.mem_cons.mp hm with heq | hmem'
        · exact absurd (by rw [← heq]) hdv
        · exact ih (pyReplace acc d.2.1 d.2.2) ⟨i, p, hmem'⟩
            (fun e he => hL e (List.mem_cons_of_mem d he))

theorem strSlice_infix (s : String) (i j : Nat) :
    (strSlice s i j).data <:+: s.data := by
  show ((s.data.take j).drop i) <:+: s.data
  exact (List.drop_suffix i (s.data.take j)).isInfix.trans
    (List.take_prefix j s.data).isInfix

/-- Soundness of the word-boundary occurrence checker: it only reports actual
substrings. -/
theorem occursWordCS_false_of_not_infix {v s : String}
    (h : ¬ v.data <:+: s.data) : occursWordCS v s = false := by
  rw [occursWordCS, List.any_eq_false]
  intro i _
  by_cases hsl : strSlice s i (i + v.length) = v
  · exact absurd (hsl ▸ strSlice_infix s i (i + v.length)) h
  · simp [hsl]

/-! ### Membership through the sorting helpers -/

theorem mem_insBefore {α : Type} (lt : α → α → Bool) (x y : α) (l : List α) :
    y ∈ insBefore lt x l ↔ y = x ∨ y ∈ l := by
  induction l with
  | nil => simp [insBefore]
  | cons z l ih =>
      rw [insBefore]
      by_cases hlt : lt x z
      · simp [hlt]
      · rw [if_neg hlt]
        simp only [List.mem_cons, ih]
        tauto

theorem mem_insSortFold {α : Type} (lt : α → α → Bool) :
    ∀ (l acc : List α) (y : α),
      y ∈ l.foldl (fun acc z => insBefore lt z acc) acc ↔ y ∈ acc ∨ y ∈ l := by
  intro l
  induction l with
  | nil => simp
  | cons z l ih =>
      intro acc y
      simp only [List.foldl_cons, ih, mem_insBefore, List.mem_cons]
      tauto

theorem mem_insSortBy {α : Type} (lt : α → α → Bool) (l : List α) (y : α) :
    y ∈ insSortBy lt l ↔ y ∈ l := by
  rw [insSortBy, mem_insSortFold]
  simp

/-! ### No-op lemmas: empty detection lists and unmapped restore scans -/

theorem patMatchLoop_ne_nil (m : Manager) (text pt : String) (s t : Nat)
    (rest : List (Nat × Nat)) :
    (patMatchLoop m text pt ((s, t) :: rest)).1 ≠ [] := by
  simp [patMatchLoop]

theorem patMatchLoop_nil (m : Manager) (text pt : String) :
    patMatchLoop m text pt [] = ([], m) := rfl

theorem patLoop_state_of_empty :
    ∀ (ps : List (String × RE)) (m : Manager) (text : String),
      (patLoop m text ps).1 = [] → (patLoop m text ps).2 = m := by
  intro ps
  induction ps with
  | nil => intro m text _; rfl
  | cons pr rest ih =>
      intro m text h
      cases pr with
      | mk pt r =>
          simp only [patLoop] at h ⊢
          rcases List.append_eq_nil.mp h with ⟨h1, h2⟩
          cases hms : findIter r text with
          | nil =>
              rw [hms] at h2
              rw [patMatchLoop_nil] at h2 ⊢
              exact ih m text h2
          | cons sp rest' =>
              rw [hms] at h1
              cases sp with
              | mk s t => exact absurd h1 (patMatchLoop_ne_nil m text pt s t rest')

theorem entLoop_state_of_empty :
    ∀ (es : List (String × String × Nat × Nat)) (m : Manager),
      (entLoop m es).1 = [] → (entLoop m es).2 = m := by
  intro es
  induction es with
  | nil => intro m _; rfl
  | cons e rest ih =>
      intro m h
      obtain ⟨etext, etype, s, t⟩ := e
      by_cases hshort : (pyStrip etext).length < 2
      · simp only [entLoop, if_pos hshort] at h ⊢
        exact ih m h
      · simp [entLoop, if_neg hshort] at h

theorem detect_state_of_empty (m : Manager) (s : String)
    (h : (detect_pii_in_text m s).1 = []) : (detect_pii_in_text m s).2 = m := by
  by_cases hner : (patLoop m s m.config.patterns).2.use_ner
  · simp only [detect_pii_in_text, if_pos hner] at h ⊢
    rcases List.append_eq_nil.mp h with ⟨h1, h2⟩
    have hst := patLoop_state_of_empty m.config.patterns m s h1
    rw [hst] at h2 ⊢
    exact entLoop_state_of_empty _ m h2
  · simp only [detect_pii_in_text, if_neg hner] at h ⊢
    exact patLoop_state_of_empty m.config.patterns m s h

theorem anonymize_of_empty (m : Manager) (s : String)
    (h : (detect_pii_in_text m s).1 = []) : anonymize_text m s = (s, m) := by
  have hst := detect_state_of_empty m s h
  simp [anonymize_text, h, hst, insSortBy]

theorem restoreFold_noop (m : Manager) :
    ∀ (L : List ((Nat × Nat) × String)) (acc : String),
      (∀ pr ∈ L, dictGet m.reverse_map pr.2 = none) →
      L.foldl
        (fun acc msp =>
          match dictGet m.reverse_map msp.2 with
          | some original =>
              ⟨acc.data.take msp.1.1⟩ ++ original ++ ⟨acc.data.drop msp.1.2⟩
          | none => acc) acc = acc := by
  intro L
  induction L with
  | nil => intro acc _; rfl
  | cons pr L ih =>
      intro acc hL
      have h1 : dictGet m.reverse_map pr.2 = none := hL pr (List.mem_cons_self pr L)
      simp only [List.foldl_cons, h1]
      exact ih acc fun e he => hL e (List.mem_cons_of_mem pr he)

/-- Unmapped scans leave the text untouched. -/
theorem restore_noop (m : Manager) (s : String)
    (h : ∀ pr ∈ restoreScan s, dictGet m.reverse_map pr.2 = none) :
    restore_text m s = s :=
  restoreFold_noop m (restoreScan s) s h

/-! ### Allocation bookkeeping: `_create_placeholder` and the maps -/

/-- Forward-minus-reverse map size; allocation can only increase it, and it
increases exactly when a freshly drawn placeholder collides with an existing
reverse-map key. -/
def dLen (m : Manager) : Int :=
  (m.pii_map.length : Int) - (m.reverse_map.length : Int)

theorem create_of_mem {m : Manager} {o t p : String}
    (h : dictGet m.pii_map o = some p) : create_placeholder m o t = (p, m) := by
  simp [create_placeholder, h]

theorem create_new_maps {m : Manager} {o t : String}
    (h : dictGet m.pii_map o = none) :
    ∃ p mid, create_placeholder m o t = (p, mid) ∧
      mid.pii_map = dictSet m.pii_map o p ∧
      mid.reverse_map = dictSet m.reverse_map p o := by
  cases hu : m.use_semantic_aliases <;> cases hg : m.alias_generator <;>
    simp only [create_placeholder, h, hu, hg, mkUuidPlaceholder] <;>
    first
      | exact ⟨_, _, rfl, rfl, rfl⟩
      | (split <;> exact ⟨_, _, rfl, rfl, rfl⟩)

theorem create_pii_lookup_self (m : Manager) (o t : String) :
    dictGet (create_placeholder m o t).2.pii_map o =
      some (create_placeholder m o t).1 := by
  cases hmem : dictGet m.pii_map o with
  | some p => rw [create_of_mem hmem]; exact hmem
  | none =>
      obtain ⟨p, mid, heq, hpii, _⟩ := create_new_maps (t := t) hmem
      rw [heq]
      simp only [hpii]
      exact dictGet_dictSet_self _ _ _

theorem create_pii_preserved {m : Manager} (o t : String) {o' p' : String}
    (h : dictGet m.pii_map o' = some p') :
    dictGet (create_placeholder m o t).2.pii_map o' = some p' := by
  cases hmem : dictGet m.pii_map o with
  | some p => rw [create_of_mem hmem]; exact h
  | none =>
      obtain ⟨p, mid, heq, hpii, _⟩ := create_new_maps (t := t) hmem
      rw [heq]
      simp only [hpii]
      have hne : o ≠ o' := by
        intro he
        rw [he] at hmem
        rw [hmem] at h
        exact Option.noConfusion h
      rw [dictGet_dictSet_ne _ _ hne]
      exact h

theorem create_dLen_mono (m : Manager) (o t : String) :
    dLen m ≤ dLen (create_placeholder m o t).2 := by
  cases hmem : dictGet m.pii_map o with
  | some p => rw [create_of_mem hmem]
  | none =>
      obtain ⟨p, mid, heq, hpii, hrev⟩ := create_new_maps (t := t) hmem
      rw [heq]
      simp only [dLen, hpii, hrev]
      rw [dictSet_length_of_not_mem _ _ hmem]
      cases hrevmem : dictGet m.reverse_map p with
      | some o0 =>
          rw [dictSet_length_of_mem _ _ (by rw [hrevmem]; rfl)]
          push_cast
          omega
      | none =>
          rw [dictSet_length_of_not_mem _ _ hrevmem]
          push_cast
          omega

/-- A clean (size-difference preserving) allocation step is either a pure
lookup of an already-allocated value or a doubly fresh registration. -/
theorem create_cases_clean {m : Manager} {o t : String}
    (hclean : dLen (create_placeholder m o t).2 = dLen m) :
    ((create_placeholder m o t).2 = m ∧
      dictGet m.pii_map o = some (create_placeholder m o t).1) ∨
    (dictGet m.pii_map o = none ∧
      dictGet m.reverse_map (create_placeholder m o t).1 = none ∧
      (create_placeholder m o t).2.pii_map =
        dictSet m.pii_map o (create_placeholder m o t).1 ∧
      (create_placeholder m o t).2.reverse_map =
        dictSet m.reverse_map (create_placeholder m o t).1 o) := by
  cases hmem : dictGet m.pii_map o with
  | some p =>
      left
      have h2 : (create_placeholder m o t).2 = m := by rw [create_of_mem hmem]
      have h1 : (create_placeholder m o t).1 = p := by rw [create_of_mem hmem]
      rw [h2, h1]
      exact ⟨rfl, rfl⟩
  | none =>
      right
      obtain ⟨p, mid, heq, hpii, hrev⟩ := create_new_maps (t := t) hmem
      have h2 : (create_placeholder m o t).2 = mid := by rw [heq]
      have h1 : (create_placeholder m o t).1 = p := by rw [heq]
      cases hrevmem : dictGet m.reverse_map p with
      | some o0 =>
          exfalso
          rw [h2] at hclean
          rw [dLen, dLen, hpii, hrev, dictSet_length_of_not_mem _ _ hmem,
            dictSet_length_of_mem _ _ (by rw [hrevmem]; rfl)] at hclean
          push_cast at hclean
          omega
      | none =>
          rw [h2, h1]
          exact ⟨rfl, hrevmem, hpii, hrev⟩

/-- Consequences of a clean allocation step: the invariant survives, old
lookups survive, and the pair is registered in both maps. -/
theorem create_clean_facts {m : Manager} {o t : String}
    (hMI : MutualInverse m)
    (hclean : dLen (create_placeholder m o t).2 = dLen m) :
    MutualInverse (create_placeholder m o t).2 ∧
    (∀ o' p', dictGet m.pii_map o' = some p' →
      dictGet (create_placeholder m o t).2.pii_map o' = some p') ∧
    (∀ p' o', dictGet m.reverse_map p' = some o' →
      dictGet (create_placeholder m o t).2.reverse_map p' = some o') ∧
    dictGet (create_placeholder m o t).2.pii_map o =
      some (create_placeholder m o t).1 ∧
    dictGet (create_placeholder m o t).2.reverse_map
      (create_placeholder m o t).1 = some o := by
  rcases create_cases_clean hclean with ⟨hm, hlook⟩ | ⟨hno, hnr, hpii, hrev⟩
  · rw [hm]
    exact ⟨hMI, fun _ _ h => h, fun _ _ h => h, hlook, hMI.1 o _ hlook⟩
  · set r := create_placeholder m o t with hr
    refine ⟨⟨?_, ?_⟩, ?_, ?_, ?_, ?_⟩
    · intro o2 p2 h2
      rw [hpii] at h2
      rw [hrev]
      by_cases ho2 : o = o2
      · subst ho2
        rw [dictGet_dictSet_self] at h2
        cases h2
        exact dictGet_dictSet_self _ _ _
      · rw [dictGet_dictSet_ne _ _ ho2] at h2
        have hrevlook := hMI.1 o2 p2 h2
        have hne : r.1 ≠ p2 := by
          intro he
          rw [← he] at hrevlook
          rw [hnr] at hrevlook
          exact Option.noConfusion hrevlook
        rw [dictGet_dictSet_ne _ _ hne]
        exact hrevlook
    · intro p2 o2 h2
      rw [hrev] at h2
      rw [hpii]
      by_cases hp2 : r.1 = p2
      · subst hp2
        rw [dictGet_dictSet_self] at h2
        cases h2
        exact dictGet_dictSet_self _ _ _
      · rw [dictGet_dictSet_ne _ _ hp2] at h2
        have hpiilook := hMI.2 p2 o2 h2
        have hne : o ≠ o2 := by
          intro he
          rw [← he] at hpiilook
          rw [hno] at hpiilook
          exact Option.noConfusion hpiilook
        rw [dictGet_dictSet_ne _ _ hne]
        exact hpiilook
    · intro o' p' h'
      rw [hpii]
      have hne : o ≠ o' := by
        intro he
        rw [← he] at h'
        rw [hno] at h'
        exact Option.noConfusion h'
      rw [dictGet_dictSet_ne _ _ hne]
      exact h'
    · intro p' o' h'
      rw [hrev]
      have hne : r.1 ≠ p' := by
        intro he
        rw [← he] at h'
        rw [hnr] at h'
        exact Option.noConfusion h'
      rw [dictGet_dictSet_ne _ _ hne]
      exact h'
    · rw [hpii]; exact dictGet_dictSet_self _ _ _
    · rw [hrev]; exact dictGet_dictSet_self _ _ _

/-! ### Forward-map registration through the detection loops -/

theorem patMatchLoop_pii_preserved :
    ∀ (ms : List (Nat × Nat)) (m : Manager) (text pt : String) {o' p' : String},
      dictGet m.pii_map o' = some p' →
      dictGet (patMatchLoop m text pt ms).2.pii_map o' = some p' := by
  intro ms
  induction ms with
  | nil => intro m text pt o' p' h; exact h
  | cons sp rest ih =>
      intro m text pt o' p' h
      obtain ⟨s, t⟩ := sp
      exact ih _ text pt (create_pii_preserved _ _ h)

theorem patMatchLoop_registered :
    ∀ (ms : List (Nat × Nat)) (m : Manager) (text pt : String),
      ∀ d ∈ (patMatchLoop m text pt ms).1,
        dictGet (patMatchLoop m text pt ms).2.pii_map d.1 = some d.2.2 := by
  intro ms
  induction ms with
  | nil => intro m text pt d hd; exact absurd hd (List.not_mem_nil d)
  | cons sp rest ih =>
      intro m text pt d hd
      obtain ⟨s, t⟩ := sp
      simp only [patMatchLoop, List.mem_cons] at hd ⊢
      rcases hd with hd | hd
      · subst hd
        exact patMatchLoop_pii_preserved rest _ text pt
          (create_pii_lookup_self m _ pt)
      · exact ih _ text pt d hd

theorem patLoop_pii_preserved :
    ∀ (ps : List (String × RE)) (m : Manager) (text : String) {o' p' : String},
      dictGet m.pii_map o' = some p' →
      dictGet (patLoop m text ps).2.pii_map o' = some p' := by
  intro ps
  induction ps with
  | nil => intro m text o' p' h; exact h
  | cons pr rest ih =>
      intro m text o' p' h
      obtain ⟨pt, r⟩ := pr
      exact ih _ text (patMatchLoop_pii_preserved _ _ text pt h)

theorem patLoop_registered :
    ∀ (ps : List (String × RE)) (m : Manager) (text : String),
      ∀ d ∈ (patLoop m text ps).1,
        dictGet (patLoop m text ps).2.pii_map d.1 = some d.2.2 := by
  intro ps
  induction ps with
  | nil => intro m text d hd; exact absurd hd (List.not_mem_nil d)
  | cons pr rest ih =>
      intro m text d hd
      obtain ⟨pt, r⟩ := pr
      simp only [patLoop, List.mem_append] at hd ⊢
      rcases hd with hd | hd
      · exact patLoop_pii_preserved rest _ text
          (patMatchLoop_registered _ m text pt d hd)
      · exact ih _ text d hd

theorem entLoop_pii_preserved :
    ∀ (es : List (String × String × Nat × Nat)) (m : Manager) {o' p' : String},
      dictGet m.pii_map o' = some p' →
      dictGet (entLoop m es).2.pii_map o' = some p' := by
  intro es
  induction es with
  | nil => intro m o' p' h; exact h
  | cons e rest ih =>
      intro m o' p' h
      obtain ⟨etext, etype, s, t⟩ := e
      by_cases hshort : (pyStrip etext).length < 2
      · simp only [entLoop, if_pos hshort]
        exact ih m h
      · simp only [entLoop, if_neg hshort]
        exact ih _ (create_pii_preserved _ _ h)

theorem entLoop_registered :
    ∀ (es : List (String × String × Nat × Nat)) (m : Manager),
      ∀ d ∈ (entLoop m es).1,
        dictGet (entLoop m es).2.pii_map d.1 = some d.2.2 := by
  intro es
  induction es with
  | nil => intro m d hd; exact absurd hd (List.not_mem_nil d)
  | cons e rest ih =>
      intro m d hd
      obtain ⟨etext, etype, s, t⟩ := e
      by_cases hshort : (pyStrip etext).length < 2
      · simp only [entLoop, if_pos hshort] at hd ⊢
        exact ih m d hd
      · simp only [entLoop, if_neg hshort, List.mem_cons] at hd ⊢
        rcases hd with hd | hd
        · subst hd
          exact entLoop_pii_preserved rest _ (create_pii_lookup_self m _ etype)
        · exact ih _ d hd

/-- Every triple returned by `detect_pii_in_text` has its original registered
in the forward map at exactly its placeholder (no hypotheses needed: forward
entries are never overwritten). -/
theorem detect_forward_registered (m : Manager) (s : String) :
    ∀ d ∈ (detect_pii_in_text m s).1,
      dictGet (detect_pii_in_text m s).2.pii_map d.1 = some d.2.2 := by
  intro d hd
  by_cases hner : (patLoop m s m.config.patterns).2.use_ner
  · simp only [detect_pii_in_text, if_pos hner, List.mem_append] at hd ⊢
    rcases hd with hd | hd
    · exact entLoop_pii_preserved _ _
        (patLoop_registered m.config.patterns m s d hd)
    · exact entLoop_registered _ _ d hd
  · simp only [detect_pii_in_text, if_neg hner] at hd ⊢
    exact patLoop_registered m.config.patterns m s d hd

/-! ### Size-difference monotonicity through the loops -/

theorem patMatchLoop_dLen_mono :
    ∀ (ms : List (Nat × Nat)) (m : Manager) (text pt : String),
      dLen m ≤ dLen (patMatchLoop m text pt ms).2 := by
  intro ms
  induction ms with
  | nil => intro m text pt; exact Int.le_refl _
  | cons sp rest ih =>
      intro m text pt
      obtain ⟨s, t⟩ := sp
      exact (create_dLen_mono m _ pt).trans (ih _ text pt)

theorem patLoop_dLen_mono :
    ∀ (ps : List (String × RE)) (m : Manager) (text : String),
      dLen m ≤ dLen (patLoop m text ps).2 := by
  intro ps
  induction ps with
  | nil => intro m text; exact Int.le_refl _
  | cons pr rest ih =>
      intro m text
      obtain ⟨pt, r⟩ := pr
      exact (patMatchLoop_dLen_mono _ m text pt).trans (ih _ text)

theorem entLoop_dLen_mono :
    ∀ (es : List (String × String × Nat × Nat)) (m : Manager),
      dLen m ≤ dLen (entLoop m es).2 := by
  intro es
  induction es with
  | nil => intro m; exact Int.le_refl _
  | cons e rest ih =>
      intro m
      obtain ⟨etext, etype, s, t⟩ := e
      by_cases hshort : (pyStrip etext).length < 2
      · simp only [entLoop, if_pos hshort]
        exact ih m
      · simp only [entLoop, if_neg hshort]
        exact (create_dLen_mono m _ etype).trans (ih _)

theorem detect_dLen_mono (m : Manager) (s : String) :
    dLen m ≤ dLen (detect_pii_in_text m s).2 := by
  by_cases hner : (patLoop m s m.config.patterns).2.use_ner
  · simp only [detect_pii_in_text, if_pos hner]
    exact (patLoop_dLen_mono m.config.patterns m s).trans (entLoop_dLen_mono _ _)
  · simp only [detect_pii_in_text, if_neg hner]
    exact patLoop_dLen_mono m.config.patterns m s

/-! ### Clean runs: collision-free allocation preserves the inverse maps -/

/-- A clean extension step: the invariant holds afterwards and all previous
entries of both maps survive. -/
def CleanExt (m m' : Manager) : Prop :=
  MutualInverse m' ∧
  (∀ o' p', dictGet m.pii_map o' = some p' → dictGet m'.pii_map o' = some p') ∧
  (∀ p' o', dictGet m.reverse_map p' = some o' → dictGet m'.reverse_map p' = some o')

theorem cleanExt_refl {m : Manager} (hMI : MutualInverse m) : CleanExt m m :=
  ⟨hMI, fun _ _ h => h, fun _ _ h => h⟩

theorem cleanExt_trans {m1 m2 m3 : Manager} (h12 : CleanExt m1 m2)
    (h23 : CleanExt m2 m3) : CleanExt m1 m3 :=
  ⟨h23.1, fun o p h => h23.2.1 o p (h12.2.1 o p h),
    fun p o h => h23.2.2 p o (h12.2.2 p o h)⟩

theorem create_cleanExt {m : Manager} {o t : String} (hMI : MutualInverse m)
    (hclean : dLen (create_placeholder m o t).2 = dLen m) :
    CleanExt m (create_placeholder m o t).2 ∧
    dictGet (create_placeholder m o t).2.pii_map o =
      some (create_placeholder m o t).1 ∧
    dictGet (create_placeholder m o t).2.reverse_map
      (create_placeholder m o t).1 = some o := by
  obtain ⟨h1, h2, h3, h4, h5⟩ := create_clean_facts hMI hclean
  exact ⟨⟨h1, h2, h3⟩, h4, h5⟩

theorem patMatchLoop_clean :
    ∀ (ms : List (Nat × Nat)) (m : Manager) (text pt : String),
      MutualInverse m →
      dLen (patMatchLoop m text pt ms).2 = dLen m →
      CleanExt m (patMatchLoop m text pt ms).2 ∧
      ∀ d ∈ (patMatchLoop m text pt ms).1,
        dictGet (patMatchLoop m text pt ms).2.pii_map d.1 = some d.2.2 ∧
        dictGet (patMatchLoop m text pt ms).2.reverse_map d.2.2 = some d.1 := by
  intro ms
  induction ms with
  | nil =>
      intro m text pt hMI _
      exact ⟨cleanExt_refl hMI, fun d hd => absurd hd (List.not_mem_nil d)⟩
  | cons sp rest ih =>
      intro m text pt hMI hclean
      obtain ⟨s, t⟩ := sp
      have hmono1 := create_dLen_mono m (strSlice text s t) pt
      have hmono2 := patMatchLoop_dLen_mono rest
        (create_placeholder m (strSlice text s t) pt).2 text pt
      have hstep : dLen (create_placeholder m (strSlice text s t) pt).2 = dLen m := by
        simp only [patMatchLoop] at hclean
        omega
      obtain ⟨hext1, hreg1, hreg2⟩ := create_cleanExt hMI hstep
      have hclean2 : dLen (patMatchLoop
          (create_placeholder m (strSlice text s t) pt).2 text pt rest).2 =
          dLen (create_placeholder m (strSlice text s t) pt).2 := by
        simp only [patMatchLoop] at hclean
        omega
      obtain ⟨hext2, htrip2⟩ := ih _ text pt hext1.1 hclean2
      refine ⟨cleanExt_trans hext1 hext2, ?_⟩
      intro d hd
      simp only [patMatchLoop, List.mem_cons] at hd ⊢
      rcases hd with hd | hd
      · subst hd
        exact ⟨hext2.2.1 _ _ hreg1, hext2.2.2 _ _ hreg2⟩
      · exact htrip2 d hd

theorem patLoop_clean :
    ∀ (ps : List (String × RE)) (m : Manager) (text : String),
      MutualInverse m →
      dLen (patLoop m text ps).2 = dLen m →
      CleanExt m (patLoop m text ps).2 ∧
      ∀ d ∈ (patLoop m text ps).1,
        dictGet (patLoop m text ps).2.pii_map d.1 = some d.2.2 ∧
        dictGet (patLoop m text ps).2.reverse_map d.2.2 = some d.1 := by
  intro ps
  induction ps with
  | nil =>
      intro m text hMI _
      exact ⟨cleanExt_refl hMI, fun d hd => absurd hd (List.not_mem_nil d)⟩
  | cons pr rest ih =>
      intro m text hMI hclean
      obtain ⟨pt, r⟩ := pr
      have hmono1 := patMatchLoop_dLen_mono (findIter r text) m text pt
      have hmono2 := patLoop_dLen_mono rest
        (patMatchLoop m text pt (findIter r text)).2 text
      have hstep : dLen (patMatchLoop m text pt (findIter r text)).2 = dLen m := by
        simp only [patLoop] at hclean
        omega
      obtain ⟨hext1, htrip1⟩ := patMatchLoop_clean _ m text pt hMI hstep
      have hclean2 : dLen (patLoop
          (patMatchLoop m text pt (findIter r text)).2 text rest).2 =
          dLen (patMatchLoop m text pt (findIter r text)).2 := by
        simp only [patLoop] at hclean
        omega
      obtain ⟨hext2, htrip2⟩ := ih _ text hext1.1 hclean2
      refine ⟨cleanExt_trans hext1 hext2, ?_⟩
      intro d hd
      simp only [patLoop, List.mem_append] at hd ⊢
      rcases hd with hd | hd
      · obtain ⟨ha, hb⟩ := htrip1 d hd
        exact ⟨hext2.2.1 _ _ ha, hext2.2.2 _ _ hb⟩
      · exact htrip2 d hd

theorem entLoop_clean :
    ∀ (es : List (String × String × Nat × Nat)) (m : Manager),
      MutualInverse m →
      dLen (entLoop m es).2 = dLen m →
      CleanExt m (entLoop m es).2 ∧
      ∀ d ∈ (entLoop m es).1,
        dictGet (entLoop m es).2.pii_map d.1 = some d.2.2 ∧
        dictGet (entLoop m es).2.reverse_map d.2.2 = some d.1 := by
  intro es
  induction es with
  | nil =>
      intro m hMI _
      exact ⟨cleanExt_refl hMI, fun d hd => absurd hd (List.not_mem_nil d)⟩
  | cons e rest ih =>
      intro m hMI hclean
      obtain ⟨etext, etype, s, t⟩ := e
      by_cases hshort : (pyStrip etext).length < 2
      · simp only [entLoop, if_pos hshort] at hclean ⊢
        exact ih m hMI hclean
      · simp only [entLoop, if_neg hshort] at hclean ⊢
        have hmono1 := create_dLen_mono m etext etype
        have hmono2 := entLoop_dLen_mono rest (create_placeholder m etext etype).2
        have hstep : dLen (create_placeholder m etext etype).2 = dLen m := by omega
        obtain ⟨hext1, hreg1, hreg2⟩ := create_cleanExt hMI hstep
        have hclean2 : dLen (entLoop (create_placeholder m etext etype).2 rest).2 =
            dLen (create_placeholder m etext etype).2 := by omega
        obtain ⟨hext2, htrip2⟩ := ih _ hext1.1 hclean2
        refine ⟨cleanExt_trans hext1 hext2, ?_⟩
        intro d hd
        simp only [List.mem_cons] at hd
        rcases hd with hd | hd
        · subst hd
          exact ⟨hext2.2.1 _ _ hreg1, hext2.2.2 _ _ hreg2⟩
        · exact htrip2 d hd

/-- The full clean-run fact for `detect_pii_in_text`: when the run is
collision-free (witnessed by unchanged forward/reverse size difference) and
the maps were mutual inverses, they stay mutual inverses and every returned
triple is registered in both maps. -/
theorem detect_clean (m : Manager) (s : String)
    (hMI : MutualInverse m)
    (hclean : dLen (detect_pii_in_text m s).2 = dLen m) :
    CleanExt m (detect_pii_in_text m s).2 ∧
    ∀ d ∈ (detect_pii_in_text m s).1,
      dictGet (detect_pii_in_text m s).2.pii_map d.1 = some d.2.2 ∧
      dictGet (detect_pii_in_text m s).2.reverse_map d.2.2 = some d.1 := by
  by_cases hner : (patLoop m s m.config.patterns).2.use_ner
  · have hmono1 := patLoop_dLen_mono m.config.patterns m s
    have hmono2 := entLoop_dLen_mono
      (detect_entities_with_ner (patLoop m s m.config.patterns).2 s)
      (patLoop m s m.config.patterns).2
    have hc : dLen (detect_pii_in_text m s).2 = dLen m := hclean
    simp only [detect_pii_in_text, if_pos hner] at hc ⊢
    have hstep : dLen (patLoop m s m.config.patterns).2 = dLen m := by omega
    obtain ⟨hext1, htrip1⟩ := patLoop_clean m.config.patterns m s hMI hstep
    have hclean2 : dLen (entLoop (patLoop m s m.config.patterns).2
        (detect_entities_with_ner (patLoop m s m.config.patterns).2 s)).2 =
        dLen (patLoop m s m.config.patterns).2 := by omega
    obtain ⟨hext2, htrip2⟩ := entLoop_clean _ _ hext1.1 hclean2
    refine ⟨cleanExt_trans hext1 hext2, ?_⟩
    intro d hd
    simp only [List.mem_append] at hd
    rcases hd with hd | hd
    · obtain ⟨ha, hb⟩ := htrip1 d hd
      exact ⟨hext2.2.1 _ _ ha, hext2.2.2 _ _ hb⟩
    · exact htrip2 d hd
  · have hc : dLen (detect_pii_in_text m s).2 = dLen m := hclean
    simp only [detect_pii_in_text, if_neg hner] at hc ⊢
    exact patLoop_clean m.config.patterns m s hMI hc

/-! ### The operation model for map-invariant preservation -/

/-- An operation on a Manager: detection, anonymization, restoration, or a
save-then-reload of the mapping store. -/
inductive Op where
  | det : String → Op
  | anon : String → Op
  | rst : String → Op
  | saveLoad : Op

/-- State effect of one operation (`restore_text` mutates nothing in source;
`load_mapping (save_mapping m)` replaces the maps with themselves). -/
def execOp (m : Manager) : Op → Manager
  | Op.det s => (detect_pii_in_text m s).2
  | Op.anon s => (anonymize_text m s).2
  | Op.rst _ => m
  | Op.saveLoad => load_mapping m (save_mapping m)

/-- A sequence of operations. -/
def execOps (m : Manager) (ops : List Op) : Manager :=
  ops.foldl execOp m

theorem anonymize_state (m : Manager) (s : String) :
    (anonymize_text m s).2 = (detect_pii_in_text m s).2 := rfl

theorem saveLoad_id (m : Manager) : load_mapping m (save_mapping m) = m := rfl

theorem execOp_dLen_mono (m : Manager) (op : Op) : dLen m ≤ dLen (execOp m op) := by
  cases op with
  | det s => exact detect_dLen_mono m s
  | anon s => exact detect_dLen_mono m s
  | rst s => exact Int.le_refl _
  | saveLoad => exact Int.le_refl _

theorem execOp_MI (m : Manager) (op : Op) (hMI : MutualInverse m)
    (hclean : dLen (execOp m op) = dLen m) : MutualInverse (execOp m op) := by
  cases op with
  | det s => exact (detect_clean m s hMI hclean).1.1
  | anon s => exact (detect_clean m s hMI hclean).1.1
  | rst s => exact hMI
  | saveLoad => exact hMI

theorem execOps_dLen_mono (ops : List Op) :
    ∀ m : Manager, dLen m ≤ dLen (execOps m ops) := by
  induction ops with
  | nil => intro m; exact Int.le_refl _
  | cons op rest ih =>
      intro m
      exact (execOp_dLen_mono m op).trans (ih (execOp m op))

theorem execOps_MI (ops : List Op) :
    ∀ m : Manager, MutualInverse m → dLen (execOps m ops) = dLen m →
      MutualInverse (execOps m ops) := by
  induction ops with
  | nil => intro m hMI _; exact hMI
  | cons op rest ih =>
      intro m hMI hclean
      have hmono1 := execOp_dLen_mono m op
      have hmono2 := execOps_dLen_mono rest (execOp m op)
      have hstep : dLen (execOp m op) = dLen m := by
        simp only [execOps, List.foldl_cons] at hclean
        have : execOps (execOp m op) rest = (rest.foldl execOp (execOp m op)) := rfl
        rw [← this] at hclean
        omega
      have h1 := execOp_MI m op hMI hstep
      have hclean2 : dLen (execOps (execOp m op) rest) = dLen (execOp m op) := by
        simp only [execOps, List.foldl_cons] at hclean ⊢
        omega
      exact ih (execOp m op) h1 hclean2

/-! ### Statistics counting lemmas -/

theorem sumOthers_bump (st : List (String × Nat)) (k : String)
    (hk : k ≠ "TOTAL") :
    sumOthers (dictSet st k (dictGetD st k 0 + 1)) = sumOthers st + 1 := by
  induction st with
  | nil => simp [dictSet, dictGetD, dictGet, sumOthers, hk]
  | cons pr rest ih =>
      obtain ⟨a, b⟩ := pr
      by_cases hak : a = k
      · subst hak
        simp only [dictSet, if_pos rfl, dictGetD, dictGet, if_pos rfl, if_true,
          eq_self_iff_true, Option.getD_some, sumOthers, if_neg hk]
        omega
      · have hgd : dictGetD ((a, b) :: rest) k 0 = dictGetD rest k 0 := by
          simp [dictGetD, dictGet, hak]
        rw [hgd]
        simp only [dictSet, if_neg hak, sumOthers, ih]
        omega

theorem sumOthers_set_total (st : List (String × Nat)) (v : Nat) :
    sumOthers (dictSet st "TOTAL" v) = sumOthers st := by
  induction st with
  | nil => simp [dictSet, sumOthers]
  | cons pr rest ih =>
      obtain ⟨a, b⟩ := pr
      by_cases ha : a = "TOTAL"
      · subst ha
        simp [dictSet, sumOthers]
      · simp only [dictSet, if_neg ha, sumOthers, ih]

theorem stats_fold_sum (rev : List (String × String)) :
    ∀ st : List (String × Nat),
      (∀ pr ∈ rev, parsePlaceholderType pr.1 ≠ "TOTAL") →
      sumOthers (rev.foldl
        (fun st pr =>
          let t := parsePlaceholderType pr.1
          dictSet st t (dictGetD st t 0 + 1)) st) =
        sumOthers st + rev.length := by
  induction rev with
  | nil => intro st _; simp
  | cons pr rest ih =>
      intro st hk
      simp only [List.foldl_cons, List.length_cons]
      rw [ih _ (fun e he => hk e (List.mem_cons_of_mem pr he)),
        sumOthers_bump st _ (hk pr (List.mem_cons_self pr rest))]
      omega

/-- Statistics under a collision-free state whose placeholders never parse to
the literal type `TOTAL`: the `TOTAL` entry is the forward-map size and it
equals the sum of the per-type counts. -/
theorem get_statistics_consistent (m : Manager)
    (h1 : ∀ pr ∈ m.reverse_map, parsePlaceholderType pr.1 ≠ "TOTAL")
    (h2 : m.pii_map.length = m.reverse_map.length) :
    dictGet (get_statistics m) "TOTAL" = some m.pii_map.length ∧
    sumOthers (get_statistics m) = m.pii_map.length := by
  constructor
  · exact dictGet_dictSet_self _ _ _
  · show sumOthers (dictSet _ "TOTAL" _) = _
    rw [sumOthers_set_total, stats_fold_sum m.reverse_map [] h1]
    simp [sumOthers, h2]

/-! ### Alias uniqueness (`_ensure_unique` and the generator branches) -/

theorem candAlias_inj {orig : String} {i j : Nat}
    (h : candAlias orig i = candAlias orig j) : i = j := by
  unfold candAlias at h
  exact decRepr_inj (string_append_cancel h)

theorem euGo_eq_zero (S : List String) (orig cur : String) (c : Nat) :
    euGo S orig 0 c cur = cur := rfl

/-- The disambiguation loop exits on a fresh alias as soon as one of the
candidates within its fuel budget is fresh. -/
theorem euGo_fresh_of_exists (S : List String) (orig : String) :
    ∀ (f c : Nat) (cur : String),
      (cur ∉ S ∨ ∃ i, c ≤ i ∧ i < c + f ∧ candAlias orig i ∉ S) →
      euGo S orig f c cur ∉ S := by
  intro f
  induction f with
  | zero =>
      intro c cur h
      rcases h with h | ⟨i, h1, h2, _⟩
      · exact h
      · omega
  | succ f ih =>
      intro c cur h
      by_cases hcur : cur ∈ S
      · simp only [euGo, if_pos hcur]
        apply ih
        rcases h with h | ⟨i, h1, h2, h3⟩
        · exact absurd hcur h
        · by_cases hic : i = c
          · exact Or.inl (hic ▸ h3)
          · exact Or.inr ⟨i, by omega, by omega, h3⟩
      · simp only [euGo, if_neg hcur]
        exact hcur

/-- Pigeonhole: among the first `|S| + 2` numbered candidates, one is fresh. -/
theorem exists_fresh_cand (S : List String) (orig : String) :
    ∃ i, 1 ≤ i ∧ i < 1 + (S.length + 2) ∧ candAlias orig i ∉ S := by
  by_contra hcon
  push_neg at hcon
  have hinj : Function.Injective fun i : Nat => candAlias orig (i + 1) := by
    intro a b hab
    have := candAlias_inj hab
    omega
  have hcard : ((Finset.range (S.length + 1)).image
      fun i => candAlias orig (i + 1)).card = S.length + 1 := by
    rw [Finset.card_image_of_injective _ hinj, Finset.card_range]
  have hsub : ((Finset.range (S.length + 1)).image
      fun i => candAlias orig (i + 1)) ⊆ S.toFinset := by
    intro x hx
    obtain ⟨i, hi, rfl⟩ := Finset.mem_image.mp hx
    have hi' : i < S.length + 1 := Finset.mem_range.mp hi
    exact List.mem_toFinset.mpr (hcon (i + 1) (by omega) (by omega))
  have hle := Finset.card_le_card hsub
  have hlen := S.toFinset_card_le
  omega

theorem ensure_unique_fresh (alias0 t : String) (g : AliasGen) :
    (ensure_unique alias0 t g).1 ∉ dictGetD g.used t [] := by
  apply euGo_fresh_of_exists
  exact Or.inr (exists_fresh_cand (dictGetD g.used t []) alias0)

theorem dictGetD_dictSet_self {α : Type} (m : List (String × α)) (k : String)
    (v d : α) : dictGetD (dictSet m k v) k d = v := by
  simp [dictGetD, dictGet_dictSet_self]

theorem ensure_unique_used (alias0 t : String) (g : AliasGen) :
    dictGetD (ensure_unique alias0 t g).2.used t [] =
      dictGetD g.used t [] ++ [(ensure_unique alias0 t g).1] := by
  have hfresh := ensure_unique_fresh alias0 t g
  simp only [ensure_unique] at hfresh ⊢
  rw [dictGetD_dictSet_self, if_neg hfresh]

/-- The spec-side routing key of `generate_alias` for a fixed entity type. -/
def aliasKey (t : String) : String :=
  if pyUpper t ∈ ["ORG", "ORGANIZATION", "COMPANY"] then "COMPANY"
  else if pyUpper t ∈ ["PERSON", "NAME", "PER"] then "PERSON"
  else if pyUpper t = "PRODUCT" then "PRODUCT"
  else if pyUpper t ∈ ["GPE", "LOCATION", "LOC"] then "LOCATION"
  else pyUpper t

/-- The location branch, which bypasses the uniqueness guard. -/
def isLocBranch (t : String) : Prop :=
  pyUpper t ∉ ["ORG", "ORGANIZATION", "COMPANY"] ∧
  pyUpper t ∉ ["PERSON", "NAME", "PER"] ∧
  pyUpper t ≠ "PRODUCT" ∧
  pyUpper t ∈ ["GPE", "LOCATION", "LOC"]

theorem get_counter_spec (g : AliasGen) (t : String) :
    get_counter g t = (dictGetD g.counters t 0 + 1,
      { g with counters := dictSet g.counters t (dictGetD g.counters t 0 + 1) }) := by
  unfold get_counter dictGetD
  cases h : dictGet g.counters t <;> simp [h]

/-- Every non-location branch of `generate_alias` routes through the guard:
the result is fresh for the branch key and is recorded there. -/
theorem generate_alias_fresh (g : AliasGen) (t o : String) (h : ¬ isLocBranch t) :
    (generate_alias g t o).1 ∉ dictGetD g.used (aliasKey t) [] ∧
    dictGetD (generate_alias g t o).2.used (aliasKey t) [] =
      dictGetD g.used (aliasKey t) [] ++ [(generate_alias g t o).1] := by
  by_cases h1 : pyUpper t ∈ ["ORG", "ORGANIZATION", "COMPANY"]
  · simp only [generate_alias, aliasKey, if_pos h1, generate_company_name]
    exact ⟨ensure_unique_fresh _ _ _, ensure_unique_used _ _ _⟩
  · by_cases h2 : pyUpper t ∈ ["PERSON", "NAME", "PER"]
    · simp only [generate_alias, aliasKey, if_neg h1, if_pos h2,
        generate_person_name]
      exact ⟨ensure_unique_fresh _ _ _, ensure_unique_used _ _ _⟩
    · by_cases h3 : pyUpper t = "PRODUCT"
      · simp only [generate_alias, aliasKey, if_neg h1, if_neg h2, if_pos h3,
          generate_product_name]
        exact ⟨ensure_unique_fresh _ _ _, ensure_unique_used _ _ _⟩
      · by_cases h4 : pyUpper t ∈ ["GPE", "LOCATION", "LOC"]
        · exact absurd ⟨h1, h2, h3, h4⟩ h
        · simp only [generate_alias, aliasKey, if_neg h1, if_neg h2, if_neg h3,
            if_neg h4]
          rw [get_counter_spec]
          exact ⟨ensure_unique_fresh _ _ _, ensure_unique_used _ _ _⟩

/-- The location branch: a bare counter, and the counter strictly advances. -/
theorem generate_alias_loc (g : AliasGen) (t o : String) (h : isLocBranch t) :
    (generate_alias g t o).1 =
      "LOCATION_" ++ decRepr (dictGetD g.counters "LOCATION" 0 + 1) ∧
    dictGetD (generate_alias g t o).2.counters "LOCATION" 0 =
      dictGetD g.counters "LOCATION" 0 + 1 := by
  obtain ⟨h1, h2, h3, h4⟩ := h
  simp only [generate_alias, if_neg h1, if_neg h2, if_neg h3, if_pos h4,
    generate_location_name]
  rw [get_counter_spec]
  refine ⟨rfl, ?_⟩
  show dictGetD (dictSet g.counters "LOCATION" _) "LOCATION" 0 = _
  rw [dictGetD, dictGet_dictSet_self, Option.getD_some]

/-- N successive `generate_alias` calls of one type from a generator state. -/
def aliasRun (g : AliasGen) (t : String) : Nat → List String
  | 0 => []
  | n + 1 =>
      (generate_alias g t "").1 ::
        aliasRun (generate_alias g t "").2 t n

theorem aliasRun_nonloc (t : String) (h : ¬ isLocBranch t) :
    ∀ (n : Nat) (g : AliasGen),
      (∀ a ∈ aliasRun g t n, a ∉ dictGetD g.used (aliasKey t) []) ∧
      (aliasRun g t n).Nodup := by
  intro n
  induction n with
  | zero => intro g; simp [aliasRun]
  | succ n ih =>
      intro g
      obtain ⟨hfresh, hused⟩ := generate_alias_fresh g t "" h
      obtain ⟨ihmem, ihnd⟩ := ih (generate_alias g t "").2
      constructor
      · intro a ha
        rcases List.mem_cons.mp ha with ha | ha
        · exact ha ▸ hfresh
        · have := ihmem a ha
          rw [hused] at this
          intro hmem
          exact this (List.mem_append_left _ hmem)
      · refine List.Nodup.cons ?_ ihnd
        intro hmem
        have := ihmem _ hmem
        rw [hused] at this
        exact this (List.mem_append_right _ (List.mem_singleton_self _))

theorem aliasRun_loc_mem (t : String) (h : isLocBranch t) :
    ∀ (n : Nat) (g : AliasGen), ∀ a ∈ aliasRun g t n,
      ∃ i, dictGetD g.counters "LOCATION" 0 < i ∧
        a = "LOCATION_" ++ decRepr i := by
  intro n
  induction n with
  | zero => intro g a ha; exact absurd ha (List.not_mem_nil a)
  | succ n ih =>
      intro g a ha
      obtain ⟨hval, hctr⟩ := generate_alias_loc g t "" h
      rcases List.mem_cons.mp ha with ha | ha
      · exact ⟨dictGetD g.counters "LOCATION" 0 + 1, by omega, ha.trans hval⟩
      · obtain ⟨i, hi1, hi2⟩ := ih (generate_alias g t "").2 a ha
        rw [hctr] at hi1
        exact ⟨i, by omega, hi2⟩

theorem aliasRun_loc_nodup (t : String) (h : isLocBranch t) :
    ∀ (n : Nat) (g : AliasGen), (aliasRun g t n).Nodup := by
  intro n
  induction n with
  | zero => intro g; simp [aliasRun]
  | succ n ih =>
      intro g
      obtain ⟨hval, hctr⟩ := generate_alias_loc g t "" h
      refine List.Nodup.cons ?_ (ih (generate_alias g t "").2)
      intro hmem
      obtain ⟨i, hi1, hi2⟩ := aliasRun_loc_mem t h n (generate_alias g t "").2
        (generate_alias g t "").1 hmem
      rw [hctr] at hi1
      rw [hval] at hi2
      have := decRepr_inj (string_append_cancel hi2)
      omega

/-- Successive aliases of one type are pairwise distinct, for every type and
every randomness stream, from any generator state. -/
theorem aliasRun_nodup (g : AliasGen) (t : String) (n : Nat) :
    (aliasRun g t n).Nodup := by
  by_cases h : isLocBranch t
  · exact aliasRun_loc_nodup t h n g
  · exact (aliasRun_nonloc t h n g).2

/-! ### Claimed-span discipline of the NER stages

Entities appended by a stage have a span that is not *equal* to any span
claimed when the stage saw them (the source checks exact span membership,
not overlap). -/

theorem nerStage2_adds_unclaimed :
    ∀ (ms : List (Nat × Nat)) (text : String) (acc : NerAcc),
      ∀ e ∈ (nerStage2 text ms acc).ents,
        e ∈ acc.ents ∨ (e.2.2.1, e.2.2.2) ∉ acc.claimed := by
  intro ms
  induction ms with
  | nil => intro text acc e he; exact Or.inl he
  | cons sp rest ih =>
      intro text acc e he
      obtain ⟨s, t⟩ := sp
      by_cases hc : (s, t) ∈ acc.claimed
      · simp only [nerStage2, if_pos hc] at he
        exact ih text acc e he
      · simp only [nerStage2, if_neg hc] at he
        split at he
        · exact ih text acc e he
        · split at he
          · exact ih text acc e he
          · rcases ih text _ e he with h | h
            · rcases List.mem_append.mp h with h | h
              · exact Or.inl h
              · rcases List.mem_singleton.mp h with rfl
                exact Or.inr hc
            · refine Or.inr fun hmem => h (List.mem_append_left _ hmem)

theorem nerStage3_adds_unclaimed :
    ∀ (ms : List (Nat × Nat)) (text : String) (acc : NerAcc),
      ∀ e ∈ (nerStage3 text ms acc).ents,
        e ∈ acc.ents ∨ (e.2.2.1, e.2.2.2) ∉ acc.claimed := by
  intro ms
  induction ms with
  | nil => intro text acc e he; exact Or.inl he
  | cons sp rest ih =>
      intro text acc e he
      obtain ⟨s, t⟩ := sp
      by_cases hc : (s, t) ∈ acc.claimed
      · simp only [nerStage3, if_pos hc] at he
        exact ih text acc e he
      · simp only [nerStage3, if_neg hc] at he
        split at he
        · exact ih text acc e he
        · split at he
          · exact ih text acc e he
          · rcases ih text _ e he with h | h
            · rcases List.mem_append.mp h with h | h
              · exact Or.inl h
              · rcases List.mem_singleton.mp h with rfl
                exact Or.inr hc
            · refine Or.inr fun hmem => h (List.mem_append_left _ hmem)

theorem nerStage4_adds_unclaimed :
    ∀ (ms : List (Nat × Nat)) (text : String) (acc : NerAcc),
      ∀ e ∈ (nerStage4 text ms acc).ents,
        e ∈ acc.ents ∨ (e.2.2.1, e.2.2.2) ∉ acc.claimed := by
  intro ms
  induction ms with
  | nil => intro text acc e he; exact Or.inl he
  | cons sp rest ih =>
      intro text acc e he
      obtain ⟨s, t⟩ := sp
      by_cases hc : (s, t) ∈ acc.claimed
      · simp only [nerStage4, if_pos hc] at he
        exact ih text acc e he
      · simp only [nerStage4, if_neg hc] at he
        rcases ih text _ e he with h | h
        · rcases List.mem_append.mp h with h | h
          · exact Or.inl h
          · rcases List.mem_singleton.mp h with rfl
            exact Or.inr hc
        · refine Or.inr fun hmem => h (List.mem_append_left _ hmem)

theorem nerStage5_adds_unclaimed :
    ∀ (ms : List (Nat × Nat)) (text : String) (acc : NerAcc),
      ∀ e ∈ (nerStage5 text ms acc).ents,
        e ∈ acc.ents ∨ (e.2.2.1, e.2.2.2) ∉ acc.claimed := by
  intro ms
  induction ms with
  | nil => intro text acc e he; exact Or.inl he
  | cons sp rest ih =>
      intro text acc e he
      obtain ⟨s, t⟩ := sp
      by_cases hc : (s, t) ∈ acc.claimed
      · simp only [nerStage5, if_pos hc] at he
        exact ih text acc e he
      · simp only [nerStage5, if_neg hc] at he
        rcases ih text _ e he with h | h
        · rcases List.mem_append.mp h with h | h
          · exact Or.inl h
          · rcases List.mem_singleton.mp h with rfl
            exact Or.inr hc
        · refine Or.inr fun hmem => h (List.mem_append_left _ hmem)

/-! ### Splice-back: single-placeholder restoration inverts replacement

Proof-side machinery for the corrected round-trip claim: `occList p s` is the
list of start positions of the leftmost non-overlapping occurrences of `p` in
`s` (what a correct scan of the placeholder finds), `spliceFold` splices `v`
over those spans from right to left (what `restore_text` does with them), and
`unrep v p s` is the structural inverse of `repAll v p s`. -/

/-- Leftmost non-overlapping occurrence positions of `p`, by fuel. -/
def occListF (p : List Char) : Nat → List Char → List Nat
  | 0, _ => []
  | f + 1, s =>
      if p ≠ [] ∧ p.isPrefixOf s then
        0 :: (occListF p f (s.drop p.length)).map (· + p.length)
      else
        match s with
        | [] => []
        | _ :: t => (occListF p f t).map (· + 1)

/-- Leftmost non-overlapping occurrence positions of `p` in `s`. -/
def occList (p s : List Char) : List Nat :=
  occListF p s.length s

/-- Splice `v` over the spans `(i, i + p.length)`, rightmost first, in the
coordinates of the original list (the splice discipline of `restore_text`). -/
def spliceFold (v p : List Char) (ps : List Nat) (s : List Char) : List Char :=
  ps.foldr (fun i acc => acc.take i ++ v ++ acc.drop (i + p.length)) s

/-- Structural inverse of `repAll`: replace every leftmost non-overlapping
occurrence of `p` by `v`, by fuel. -/
def unrepF (v p : List Char) : Nat → List Char → List Char
  | 0, s => s
  | f + 1, s =>
      if p ≠ [] ∧ p.isPrefixOf s then v ++ unrepF v p f (s.drop p.length)
      else
        match s with
        | [] => []
        | c :: t => c :: unrepF v p f t

/-- Structural inverse of `repAll`. -/
def unrep (v p s : List Char) : List Char :=
  unrepF v p s.length s

theorem occListF_fuel_congr (p : List Char) :
    ∀ f g s, s.length ≤ f → s.length ≤ g →
      occListF p f s = occListF p g s := by
  intro f
  induction f with
  | zero =>
      intro g s hf _
      have : s = [] := List.length_eq_zero.mp (Nat.le_zero.mp hf)
      subst this
      cases g with
      | zero => rfl
      | succ g =>
          by_cases hv : p ≠ [] ∧ p.isPrefixOf ([] : List Char)
          · have := List.prefix_nil.mp (List.isPrefixOf_iff_prefix.mp hv.2)
            exact absurd this hv.1
          · simp [occListF, hv]
  | succ f ih =>
      intro g s hf hg
      cases s with
      | nil =>
          cases g with
          | zero => simp [occListF]
          | succ g =>
              by_cases hv : p ≠ [] ∧ p.isPrefixOf ([] : List Char)
              · have := List.prefix_nil.mp (List.isPrefixOf_iff_prefix.mp hv.2)
                exact absurd this hv.1
              · simp [occListF, hv]
      | cons c t =>
          obtain ⟨g', rfl⟩ : ∃ g', g = g' + 1 := by
            refine ⟨g - 1, ?_⟩
            simp only [List.length_cons] at hg
            omega
          by_cases hv : p ≠ [] ∧ p.isPrefixOf (c :: t)
          · simp only [occListF, if_pos hv]
            have hp1 : 1 ≤ p.length := by
              cases p with
              | nil => exact absurd rfl hv.1
              | cons _ _ => simp
            have h1 : ((c :: t).drop p.length).length ≤ f := by
              simp only [List.length_drop, List.length_cons] at *
              omega
            have h2 : ((c :: t).drop p.length).length ≤ g' := by
              simp only [List.length_drop, List.length_cons] at *
              omega
            rw [ih g' _ h1 h2]
          · simp only [occListF, if_neg hv]
            have h1 : t.length ≤ f := by
              simp only [List.length_cons] at hf; omega
            have h2 : t.length ≤ g' := by
              simp only [List.length_cons] at hg; omega
            rw [ih g' t h1 h2]

theorem occList_nil (p : List Char) : occList p [] = [] := rfl

theorem occList_pos {p : List Char} {s : List Char}
    (hp : p ≠ []) (hpre : p <+: s) :
    occList p s = 0 :: (occList p (s.drop p.length)).map (· + p.length) := by
  have hs : s ≠ [] := by
    intro h
    subst h
    exact hp (List.prefix_nil.mp hpre)
  obtain ⟨c, t, rfl⟩ : ∃ c t, s = c :: t := by
    cases s with
    | nil => exact absurd rfl hs
    | cons c t => exact ⟨c, t, rfl⟩
  have hcond : p ≠ [] ∧ p.isPrefixOf (c :: t) :=
    ⟨hp, List.isPrefixOf_iff_prefix.mpr hpre⟩
  show occListF p (c :: t).length (c :: t) = _
  simp only [List.length_cons, occListF, if_pos hcond]
  congr 2
  apply occListF_fuel_congr
  · have hp1 : 1 ≤ p.length := by
      cases p with
      | nil => exact absurd rfl hp
      | cons _ _ => simp
    simp only [List.length_drop, List.length_cons]
    omega
  · exact Nat.le_refl _

theorem occList_neg {p : List Char} {c : Char} {t : List Char}
    (h : ¬ (p ≠ [] ∧ p <+: (c :: t))) :
    occList p (c :: t) = (occList p t).map (· + 1) := by
  have hcond : ¬ (p ≠ [] ∧ p.isPrefixOf (c :: t)) := by
    intro hc
    exact h ⟨hc.1, List.isPrefixOf_iff_prefix.mp hc.2⟩
  show occListF p (c :: t).length (c :: t) = _
  simp only [List.length_cons, occListF, if_neg hcond]
  rfl

theorem unrepF_fuel_congr (v p : List Char) :
    ∀ f g s, s.length ≤ f → s.length ≤ g →
      unrepF v p f s = unrepF v p g s := by
  intro f
  induction f with
  | zero =>
      intro g s hf _
      have : s = [] := List.length_eq_zero.mp (Nat.le_zero.mp hf)
      subst this
      cases g with
      | zero => rfl
      | succ g =>
          by_cases hv : p ≠ [] ∧ p.isPrefixOf ([] : List Char)
          · have := List.prefix_nil.mp (List.isPrefixOf_iff_prefix.mp hv.2)
            exact absurd this hv.1
          · simp [unrepF, hv]
  | succ f ih =>
      intro g s hf hg
      cases s with
      | nil =>
          cases g with
          | zero => simp [unrepF]
          | succ g =>
              by_cases hv : p ≠ [] ∧ p.isPrefixOf ([] : List Char)
              · have := List.prefix_nil.mp (List.isPrefixOf_iff_prefix.mp hv.2)
                exact absurd this hv.1
              · simp [unrepF, hv]
      | cons c t =>
          obtain ⟨g', rfl⟩ : ∃ g', g = g' + 1 := by
            refine ⟨g - 1, ?_⟩
            simp only [List.length_cons] at hg
            omega
          by_cases hv : p ≠ [] ∧ p.isPrefixOf (c :: t)
          · simp only [unrepF, if_pos hv]
            have hp1 : 1 ≤ p.length := by
              cases p with
              | nil => exact absurd rfl hv.1
              | cons _ _ => simp
            have h1 : ((c :: t).drop p.length).length ≤ f := by
              simp only [List.length_drop, List.length_cons] at *
              omega
            have h2 : ((c :: t).drop p.length).length ≤ g' := by
              simp only [List.length_drop, List.length_cons] at *
              omega
            rw [ih g' _ h1 h2]
          · simp only [unrepF, if_neg hv]
            have h1 : t.length ≤ f := by
              simp only [List.length_cons] at hf; omega
            have h2 : t.length ≤ g' := by
              simp only [List.length_cons] at hg; omega
            rw [ih g' t h1 h2]

theorem unrep_nil (v p : List Char) : unrep v p [] = [] := rfl

theorem unrep_pos {p : List Char} (v : List Char) {s : List Char}
    (hp : p ≠ []) (hpre : p <+: s) :
    unrep v p s = v ++ unrep v p (s.drop p.length) := by
  have hs : s ≠ [] := by
    intro h
    subst h
    exact hp (List.prefix_nil.mp hpre)
  obtain ⟨c, t, rfl⟩ : ∃ c t, s = c :: t := by
    cases s with
    | nil => exact absurd rfl hs
    | cons c t => exact ⟨c, t, rfl⟩
  have hcond : p ≠ [] ∧ p.isPrefixOf (c :: t) :=
    ⟨hp, List.isPrefixOf_iff_prefix.mpr hpre⟩
  show unrepF v p (c :: t).length (c :: t) = _
  simp only [List.length_cons, unrepF, if_pos hcond]
  congr 1
  apply unrepF_fuel_congr
  · have hp1 : 1 ≤ p.length := by
      cases p with
      | nil => exact absurd rfl hp
      | cons _ _ => simp
    simp only [List.length_drop, List.length_cons]
    omega
  · exact Nat.le_refl _

theorem unrep_neg {p : List Char} (v : List Char) {c : Char} {t : List Char}
    (h : ¬ (p ≠ [] ∧ p <+: (c :: t))) :
    unrep v p (c :: t) = c :: unrep v p t := by
  have hcond : ¬ (p ≠ [] ∧ p.isPrefixOf (c :: t)) := by
    intro hc
    exact h ⟨hc.1, List.isPrefixOf_iff_prefix.mp hc.2⟩
  show unrepF v p (c :: t).length (c :: t) = _
  simp only [List.length_cons, unrepF, if_neg hcond]
  rfl

/-- Splices strictly to the right of a block of length `k` commute with
prepending the block. -/
theorem spliceFold_shift (v p : List Char) (k : Nat) (a : List Char)
    (ha : a.length = k) :
    ∀ (ps : List Nat) (b : List Char),
      spliceFold v p (ps.map (· + k)) (a ++ b) = a ++ spliceFold v p ps b := by
  intro ps
  induction ps with
  | nil => intro b; rfl
  | cons i ps ih =>
      intro b
      simp only [spliceFold, List.map_cons, List.foldr_cons] at *
      rw [ih b]
      rw [List.take_append_eq_append_take, List.drop_append_eq_append_drop]
      rw [List.take_of_length_le (by omega), List.drop_eq_nil_of_le (by omega), ha]
      rw [show i + k - k = i by omega, show i + k + p.length - k = i + p.length by omega]
      simp [List.append_assoc]

/-- One splice step peels off the head offset. -/
theorem spliceFold_cons (v p : List Char) (i : Nat) (ps : List Nat)
    (s : List Char) :
    spliceFold v p (i :: ps) s =
      (spliceFold v p ps s).take i ++ v ++
        (spliceFold v p ps s).drop (i + p.length) := rfl

/-- Splicing `v` over all leftmost non-overlapping occurrences of `p`,
rightmost first, is exactly the structural inverse `unrep`. -/
theorem spliceFold_occList (v : List Char) {p : List Char} (hp : p ≠ []) :
    ∀ (n : Nat) (s : List Char), s.length ≤ n →
      spliceFold v p (occList p s) s = unrep v p s := by
  intro n
  induction n with
  | zero =>
      intro s hle
      have : s = [] := List.length_eq_zero.mp (Nat.le_zero.mp hle)
      subst this
      rfl
  | succ n ih =>
      intro s hle
      cases s with
      | nil => rfl
      | cons c t =>
          by_cases hpre : p <+: (c :: t)
          · have hp1 : 1 ≤ p.length := by
              cases p with
              | nil => exact absurd rfl hp
              | cons _ _ => simp
            obtain ⟨rest, hrest⟩ : ∃ rest, (c :: t).drop p.length = rest := ⟨_, rfl⟩
            have hsplit : c :: t = p ++ rest := by
              have h1 : c :: t = (c :: t).take p.length ++ (c :: t).drop p.length :=
                (List.take_append_drop _ _).symm
              rw [hrest, ← List.prefix_iff_eq_take.mp hpre] at h1
              exact h1
            rw [occList_pos hp hpre, unrep_pos v hp hpre, hrest, spliceFold_cons]
            have hshift : spliceFold v p ((occList p rest).map (· + p.length))
                (c :: t) = p ++ spliceFold v p (occList p rest) rest := by
              rw [hsplit]
              exact spliceFold_shift v p p.length p rfl _ _
            simp only [List.take_zero, List.nil_append, Nat.zero_add]
            rw [hshift, List.drop_left]
            have hlen : rest.length ≤ n := by
              have := congrArg List.length hrest
              simp only [List.length_drop, List.length_cons] at this
              simp only [List.length_cons] at hle
              omega
            rw [ih rest hlen]
          · rw [occList_neg (by tauto), unrep_neg v (by tauto)]
            have hshift : spliceFold v p ((occList p t).map (· + 1)) (c :: t) =
                [c] ++ spliceFold v p (occList p t) t :=
              spliceFold_shift v p 1 [c] rfl _ _
            rw [hshift]
            have hrec : spliceFold v p (occList p t) t = unrep v p t := by
              apply ih
              simp only [List.length_cons] at hle
              omega
            rw [hrec]
            rfl

/-- When the placeholder starts with a character absent from the original
text, un-replacing inverts the value-keyed global replacement. -/
theorem unrep_repAll (v : List Char) {p : List Char} (hv : v ≠ [])
    {c0 : Char} {p' : List Char} (hp : p = c0 :: p') :
    ∀ (n : Nat) (T : List Char), T.length ≤ n → c0 ∉ T →
      unrep v p (repAll v p T) = T := by
  intro n
  induction n with
  | zero =>
      intro T hle _
      have : T = [] := List.length_eq_zero.mp (Nat.le_zero.mp hle)
      subst this
      rfl
  | succ n ih =>
      intro T hle hc0
      cases T with
      | nil => rfl
      | cons c t =>
          have hpne : p ≠ [] := by rw [hp]; exact List.cons_ne_nil _ _
          by_cases hpre : v <+: (c :: t)
          · rw [repAll_pos p hv hpre]
            rw [unrep_pos v hpne (List.prefix_append p _), List.drop_left]
            have hv1 : 1 ≤ v.length := by
              cases v with
              | nil => exact absurd rfl hv
              | cons _ _ => simp
            have hrec : unrep v p (repAll v p ((c :: t).drop v.length)) =
                (c :: t).drop v.length := by
              apply ih
              · simp only [List.length_drop, List.length_cons] at *
                omega
              · intro hmem
                exact hc0 (List.mem_of_mem_drop hmem)
            rw [hrec]
            conv_rhs => rw [← List.take_append_drop v.length (c :: t)]
            rw [← List.prefix_iff_eq_take.mp hpre]
          · rw [repAll_neg p (by tauto)]
            have hng : ¬ (p ≠ [] ∧ p <+: (c :: repAll v p t)) := by
              rintro ⟨-, hpr⟩
              rw [hp] at hpr
              have := (List.cons_prefix_cons.mp hpr).1
              exact hc0 (this ▸ List.mem_cons_self c t)
            rw [unrep_neg v hng]
            have hrec : unrep v p (repAll v p t) = t := by
              apply ih
              · simp only [List.length_cons] at hle
                omega
              · intro hmem
                exact hc0 (List.mem_cons_of_mem c hmem)
            rw [hrec]

/-- Restore steps skip every scanned token that differs from the single
mapped placeholder. -/
theorem restoreFold_filter (m : Manager) (p : String)
    (hrev : ∀ tok, tok ≠ p → dictGet m.reverse_map tok = none) :
    ∀ (L : List ((Nat × Nat) × String)) (acc : String),
      L.foldl
        (fun acc msp =>
          match dictGet m.reverse_map msp.2 with
          | some original =>
              ⟨acc.data.take msp.1.1⟩ ++ original ++ ⟨acc.data.drop msp.1.2⟩
          | none => acc) acc =
      (L.filter fun pr => pr.2 = p).foldl
        (fun acc msp =>
          match dictGet m.reverse_map msp.2 with
          | some original =>
              ⟨acc.data.take msp.1.1⟩ ++ original ++ ⟨acc.data.drop msp.1.2⟩
          | none => acc) acc := by
  intro L
  induction L with
  | nil => intro acc; rfl
  | cons pr L ih =>
      intro acc
      by_cases hpr : pr.2 = p
      · rw [List.foldl_cons, List.filter_cons, if_pos (by simp [hpr]),
          List.foldl_cons]
        exact ih _
      · rw [List.foldl_cons, List.filter_cons, if_neg (by simp [hpr]),
          hrev pr.2 hpr]
        exact ih acc

/-- A descending pass of mapped splices is the right-to-left splice fold. -/
theorem restoreFold_asc (m : Manager) (p v : String)
    (hlook : dictGet m.reverse_map p = some v) :
    ∀ (is : List Nat) (acc : String),
      ((((is.map fun i => (((i, i + p.length) : Nat × Nat), p)).reverse).foldl
        (fun acc msp =>
          match dictGet m.reverse_map msp.2 with
          | some original =>
              ⟨acc.data.take msp.1.1⟩ ++ original ++ ⟨acc.data.drop msp.1.2⟩
          | none => acc) acc)).data =
      spliceFold v.data p.data is acc.data := by
  intro is
  induction is with
  | nil => intro acc; rfl
  | cons i is ih =>
      intro acc
      rw [List.map_cons, List.reverse_cons, List.foldl_append, List.foldl_cons,
        List.foldl_nil]
      simp only [hlook]
      rw [spliceFold]
      simp only [List.foldr_cons]
      rw [← spliceFold]
      rw [← ih acc]
      simp [String.data_append]

/-- With a single detection, the replacement pass is exactly one global
replace. -/
theorem anonymize_of_single (m : Manager) (T v t p : String)
    (hdet : (detect_pii_in_text m T).1 = [(v, t, p)]) :
    (anonymize_text m T).1 = pyReplace T v p := by
  simp only [anonymize_text, hdet, List.map_cons, List.map_nil, insSortBy,
    List.foldl_cons, List.foldl_nil, insBefore]

/-! ### Concrete configurations for counterexamples and witnesses -/

/-- Default-config manager with semantic aliases on, an NER oracle returning
no spaCy entities (the heuristic stages still run, as in source), an index
stream always drawing the first pool element, and one hex draw. -/
def cexManager1 : Manager :=
  mkManager (mkPiiConfig []) true [0, 0, 0, 0] (some fun _ => []) ["aaaabbbb"]

/-- Like `cexManager1`, with draws for a single organization alias. -/
def cexManager2 : Manager :=
  mkManager (mkPiiConfig []) true [0, 0] (some fun _ => []) []

/-- Plain manager (no aliases, no NER) whose two hex draws coincide. -/
def cexManager5 : Manager :=
  mkManager (mkPiiConfig []) false [] none ["aaaabbbb", "aaaabbbb"]

/-- Manager with a caller-supplied custom pattern named `TOTAL`. -/
def cexManagerTotal : Manager :=
  mkManager (mkPiiConfig [("TOTAL", rmore rdig)]) false [] none ["aaaabbbb"]

/-- Plain manager with one fresh hex draw. -/
def witnessManager5 : Manager :=
  mkManager (mkPiiConfig []) false [] none ["aaaabbbb"]

/-- Plain manager with one fresh hex draw, for the round-trip witness. -/
def witnessManager1 : Manager :=
  mkManager (mkPiiConfig []) false [] none ["aaaabbbb"]

/-- Manager with a pre-registered pair in both maps. -/
def witnessManager3 : Manager :=
  { mkManager (mkPiiConfig []) false [] none [] with
    pii_map := [("x", "P")], reverse_map := [("P", "x")] }

theorem mkManager_MI (cfg : PiiConfig) (useSem : Bool) (rng : List Nat)
    (nlp : Option (String → List SpacyEnt)) (hexes : List String) :
    MutualInverse (mkManager cfg useSem rng nlp hexes) := by
  constructor <;> intro a b h <;> exact Option.noConfusion h

/-! ### Claim C1 (round trip) -/

/-- Claim C1, counterexample: with the default configuration, semantic
aliases, and NER heuristics enabled, the text `DATE 2023` does not round
trip: the value-keyed global replacement of the entity `DATE` corrupts the
previously inserted `<DATE_...>` placeholder, and restore cannot recover it
(whatever the randomness draws; shown here at fixed draws). -/
theorem claim1_counterexample :
    restore_text (anonymize_text cexManager1 "DATE 2023").2
        (anonymize_text cexManager1 "DATE 2023").1 ≠ "DATE 2023" := by
  decide

/-- Claim C1 (amended): the round-trip contract does not hold for every
string.  It holds (1) when detection finds nothing in `T` and the Manager's
reverse map is empty (then anonymization is the identity, state is unchanged,
and the restore scan maps no token), and (2) when detection finds exactly one
value, registered alone in the reverse map, whose placeholder starts with the
character `<` absent from `T`, and the restore scan recovers exactly the
occurrences of that placeholder in the anonymized text: then every splice is
undone and the original text is recovered. -/
theorem claim1_roundtrip_characterization :
    (∀ (m : Manager) (T : String),
      (detect_pii_in_text m T).1 = [] → m.reverse_map = [] →
      restore_text (anonymize_text m T).2 (anonymize_text m T).1 = T) ∧
    (∀ (m : Manager) (T v t p : String),
      (detect_pii_in_text m T).1 = [(v, t, p)] →
      (detect_pii_in_text m T).2.reverse_map = [(p, v)] →
      v ≠ "" →
      p.data.head? = some '<' →
      '<' ∉ T.data →
      (restoreScan (pyReplace T v p)).filter (fun pr => pr.2 = p) =
        ((occList p.data (pyReplace T v p).data).map
          (fun i => (((i, i + p.length) : Nat × Nat), p))).reverse →
      restore_text (anonymize_text m T).2 (anonymize_text m T).1 = T) := by
  constructor
  · intro m T h1 h2
    rw [anonymize_of_empty m T h1]
    apply restore_noop
    intro pr _
    rw [h2]
    rfl
  · intro m T v t p hdet hrev hv hphead hTc hscan
    have hanon : (anonymize_text m T).1 = pyReplace T v p :=
      anonymize_of_single m T v t p hdet
    have hst : (anonymize_text m T).2 = (detect_pii_in_text m T).2 := rfl
    rw [hanon, hst]
    obtain ⟨q, hq⟩ : ∃ q, p.data = Char.ofNat 60 :: q := by
      cases hpd : p.data with
      | nil => rw [hpd] at hphead; exact absurd hphead (by simp)
      | cons c q =>
          rw [hpd] at hphead
          simp only [List.head?] at hphead
          exact ⟨q, by rw [Option.some_inj.mp hphead]⟩
    have hpne : p.data ≠ [] := by rw [hq]; exact List.cons_ne_nil _ _
    have hvd : v.data ≠ [] := by
      intro hd
      exact hv (String.ext hd)
    have hrev2 : ∀ tok, tok ≠ p →
        dictGet (detect_pii_in_text m T).2.reverse_map tok = none := by
      intro tok htok
      rw [hrev]
      simp only [dictGet]
      rw [if_neg fun hh => htok hh.symm]
    have hlook : dictGet (detect_pii_in_text m T).2.reverse_map p = some v := by
      rw [hrev]
      simp [dictGet]
    simp only [restore_text]
    rw [restoreFold_filter (detect_pii_in_text m T).2 p hrev2
      (restoreScan (pyReplace T v p)) (pyReplace T v p), hscan]
    apply String.ext
    rw [restoreFold_asc (detect_pii_in_text m T).2 p v hlook
      (occList p.data (pyReplace T v p).data) (pyReplace T v p)]
    rw [spliceFold_occList v.data hpne (pyReplace T v p).data.length
      (pyReplace T v p).data le_rfl]
    exact unrep_repAll v.data hvd hq T.data.length T.data le_rfl hTc

/-- Claim C1, witness for both conjuncts of the amended theorem. -/
theorem claim1_witness :
    restore_text (anonymize_text cexManager1 "hello world.").2
        (anonymize_text cexManager1 "hello world.").1 = "hello world." ∧
    restore_text (anonymize_text witnessManager1 "Contact a@b.co now").2
        (anonymize_text witnessManager1 "Contact a@b.co now").1 =
      "Contact a@b.co now" :=
  ⟨claim1_roundtrip_characterization.1 cexManager1 "hello world."
      (by decide) rfl,
   claim1_roundtrip_characterization.2 witnessManager1 "Contact a@b.co now"
      "a@b.co" "EMAIL" "<EMAIL_aaaabbbb>" (by decide) (by decide) (by decide)
      (by decide) (by decide) (by decide)⟩

/-! ### Claim C2 (no leakage) -/

/-- Claim C2, counterexample: in `Foo foo` only the capitalized `Foo` is
detected; the lowercase `foo` survives anonymization verbatim, and it is a
word-boundary-matched, case-insensitive occurrence of the detected value. -/
theorem claim2_counterexample :
    (∃ t p, ("Foo", t, p) ∈ (detect_pii_in_text cexManager2 "Foo foo").1) ∧
    occursWordCI "Foo" (anonymize_text cexManager2 "Foo foo").1 = true := by
  exact ⟨⟨"ORGANIZATION", "ACME_CORP", by decide⟩, by decide⟩

/-- Claim C2 (amended): compared case-sensitively, a detected value never
survives — indeed it does not occur as a substring at all — provided every
allocated placeholder is non-empty and shares no character with it. -/
theorem claim2_no_leakage (m : Manager) (T v : String) (hv : v ≠ "")
    (hdet : ∃ t p, (v, t, p) ∈ (detect_pii_in_text m T).1)
    (hdisj : ∀ d ∈ (detect_pii_in_text m T).1,
      d.2.2.data ≠ [] ∧ ∀ c ∈ d.2.2.data, c ∉ v.data) :
    occursWordCS v (anonymize_text m T).1 = false := by
  have hvd : v.data ≠ [] := by
    intro hd
    apply hv
    cases v
    cases hd
    rfl
  apply occursWordCS_false_of_not_infix
  show ¬ v.data <:+:
    ((insSortBy (fun a b => tripLtB b a)
        ((detect_pii_in_text m T).1.map fun d => ((pyFind T d.1 : Int), d.1, d.2.2))).foldl
      (fun acc d => pyReplace acc d.2.1 d.2.2) T).data
  apply not_infix_anonFold_mem hvd
  · obtain ⟨t, p, hm⟩ := hdet
    refine ⟨pyFind T v, p, ?_⟩
    rw [mem_insSortBy]
    exact List.mem_map.mpr ⟨(v, t, p), hm, rfl⟩
  · intro d hd
    rw [mem_insSortBy] at hd
    obtain ⟨d0, hd0, rfl⟩ := List.mem_map.mp hd
    exact hdisj d0 hd0

/-- Claim C2, witness for the amended theorem: `Foo` in `Foo baz` is
replaced by `ACME_CORP`, which shares no character with it. -/
theorem claim2_witness :
    ("Foo" : String) ≠ "" ∧
    occursWordCS "Foo" (anonymize_text cexManager2 "Foo baz").1 = false :=
  ⟨by decide,
    claim2_no_leakage cexManager2 "Foo baz" "Foo" (by decide)
      ⟨"ORGANIZATION", "ACME_CORP", by decide⟩ (by decide)⟩

/-! ### Claim C3 (idempotent allocation) -/

/-- Claim C3: an already-allocated value is returned unchanged with no state
mutation whatever the requested type, and hence two detections of the same
literal value in one `detect_pii_in_text` call carry the same placeholder. -/
theorem claim3_idempotent_allocation :
    (∀ (m : Manager) (v t p : String), dictGet m.pii_map v = some p →
      create_placeholder m v t = (p, m)) ∧
    (∀ (m : Manager) (s o t1 p1 t2 p2 : String),
      (o, t1, p1) ∈ (detect_pii_in_text m s).1 →
      (o, t2, p2) ∈ (detect_pii_in_text m s).1 → p1 = p2) := by
  constructor
  · intro m v t p h
    exact create_of_mem h
  · intro m s o t1 p1 t2 p2 h1 h2
    have r1 : dictGet (detect_pii_in_text m s).2.pii_map o = some p1 :=
      detect_forward_registered m s (o, t1, p1) h1
    have r2 : dictGet (detect_pii_in_text m s).2.pii_map o = some p2 :=
      detect_forward_registered m s (o, t2, p2) h2
    rw [r1] at r2
    exact Option.some.inj r2

/-- Claim C3, witness. -/
theorem claim3_witness :
    dictGet witnessManager3.pii_map "x" = some "P" ∧
    create_placeholder witnessManager3 "x" "EMAIL" = ("P", witnessManager3) :=
  ⟨by decide,
    claim3_idempotent_allocation.1 witnessManager3 "x" "EMAIL" "P" (by decide)⟩

/-! ### Claim C4 (alias uniqueness) -/

/-- Claim C4, counterexample to the recording clause: a `LOCATION` alias is
generated through the bare counter and is not recorded in any used-alias
set (the generator's used-alias dictionary stays empty). -/
theorem claim4_counterexample :
    (generate_alias (freshGen []) "LOCATION" "Paris").1 = "LOCATION_1" ∧
    (generate_alias (freshGen []) "LOCATION" "Paris").2.used = [] := by
  decide

/-- Claim C4 (amended): generating N aliases of one type within a session
yields pairwise-distinct strings — through the uniqueness guard and used-set
recording for the company/person/product/generic branches, and through a
bare strictly increasing counter (with no recording) for locations. -/
theorem claim4_alias_uniqueness (g : AliasGen) (t : String) (n : Nat) :
    (aliasRun g t n).Nodup :=
  aliasRun_nodup g t n

/-! ### Claim C5 (maps mutual inverses) -/

/-- Claim C5, counterexample: when two `uuid4` draws coincide, the second
allocation overwrites the reverse entry of the first and the maps are no
longer mutual inverses (`reverse_map[pii_map["a@b.co"]]` is `"c@d.co"`). -/
theorem claim5_counterexample :
    dictGet (execOps cexManager5 [Op.det "a@b.co x c@d.co"]).pii_map
        "a@b.co" = some "<EMAIL_aaaabbbb>" ∧
    dictGet (execOps cexManager5 [Op.det "a@b.co x c@d.co"]).reverse_map
        "<EMAIL_aaaabbbb>" = some "c@d.co" ∧
    ("c@d.co" : String) ≠ "a@b.co" := by
  decide

/-- Claim C5 (amended): under the accepted collision-freeness of fresh
placeholders — witnessed by the forward and reverse maps having equal size
at the end of the run — every sequence of operations (detect, anonymize,
restore, save-and-reload) on a freshly constructed Manager leaves the two
maps mutual inverses. -/
theorem claim5_mutual_inverse (cfg : PiiConfig) (useSem : Bool)
    (rng : List Nat) (nlp : Option (String → List SpacyEnt))
    (hexes : List String) (ops : List Op)
    (hclean : (execOps (mkManager cfg useSem rng nlp hexes) ops).pii_map.length =
      (execOps (mkManager cfg useSem rng nlp hexes) ops).reverse_map.length) :
    MutualInverse (execOps (mkManager cfg useSem rng nlp hexes) ops) := by
  apply execOps_MI
  · exact mkManager_MI cfg useSem rng nlp hexes
  · have h1 : ((execOps (mkManager cfg useSem rng nlp hexes) ops).pii_map.length : Int) =
        ((execOps (mkManager cfg useSem rng nlp hexes) ops).reverse_map.length : Int) := by
      exact_mod_cast hclean
    show dLen _ = dLen _
    rw [dLen, dLen, h1]
    simp [mkManager]

/-- Claim C5, witness. -/
theorem claim5_witness :
    (execOps witnessManager5 [Op.det "a@b.co", Op.saveLoad, Op.rst "x"]).pii_map.length =
      (execOps witnessManager5 [Op.det "a@b.co", Op.saveLoad, Op.rst "x"]).reverse_map.length ∧
    MutualInverse (execOps witnessManager5 [Op.det "a@b.co", Op.saveLoad, Op.rst "x"]) :=
  ⟨by decide,
    claim5_mutual_inverse (mkPiiConfig []) false [] none ["aaaabbbb"]
      [Op.det "a@b.co", Op.saveLoad, Op.rst "x"] (by decide)⟩

/-! ### Claim C6 (statistics consistency) -/

/-- Claim C6, counterexample: a caller-supplied custom pattern named `TOTAL`
(custom types are allowed) makes the per-type count parse to the key `TOTAL`;
that count is then overwritten by the total, so `TOTAL` (= 1) is not the sum
of the other reported counts (= 0). -/
theorem claim6_counterexample :
    sumOthers (get_statistics (anonymize_text cexManagerTotal "7").2) = 0 ∧
    dictGet (get_statistics (anonymize_text cexManagerTotal "7").2) "TOTAL" =
      some 1 ∧
    (0 : Nat) ≠ 1 := by
  decide

/-- Claim C6 (amended): provided no placeholder's parsed type prefix is the
literal `TOTAL` and the maps have equal size (the collision-free guarantee),
the `TOTAL` statistic equals the forward-map size — the number of unique
original values allocated — and equals the sum of all other counts. -/
theorem claim6_statistics (m : Manager)
    (h1 : ∀ pr ∈ m.reverse_map, parsePlaceholderType pr.1 ≠ "TOTAL")
    (h2 : m.pii_map.length = m.reverse_map.length) :
    dictGet (get_statistics m) "TOTAL" = some m.pii_map.length ∧
    sumOthers (get_statistics m) = m.pii_map.length :=
  get_statistics_consistent m h1 h2

/-- Claim C6, witness. -/
theorem claim6_witness :
    (∀ pr ∈ (anonymize_text witnessManager5 "a@b.co").2.reverse_map,
      parsePlaceholderType pr.1 ≠ "TOTAL") ∧
    dictGet (get_statistics (anonymize_text witnessManager5 "a@b.co").2) "TOTAL" =
      some (anonymize_text witnessManager5 "a@b.co").2.pii_map.length ∧
    sumOthers (get_statistics (anonymize_text witnessManager5 "a@b.co").2) =
      (anonymize_text witnessManager5 "a@b.co").2.pii_map.length :=
  ⟨by decide,
    (claim6_statistics (anonymize_text witnessManager5 "a@b.co").2
      (by decide) (by decide)).1,
    (claim6_statistics (anonymize_text witnessManager5 "a@b.co").2
      (by decide) (by decide)).2⟩

/-! ### Claim C7 (non-string inputs are no-ops) -/

/-- Claim C7: on any non-string Python value, detection returns the empty
list, anonymize and restore return the input unchanged, and the Manager
state is untouched. -/
theorem claim7_non_string_noop (m : Manager) (x : PyVal) (h : x.isStr = false) :
    detect_pii_in_text_v m x = ([], m) ∧
    anonymize_text_v m x = (x, m) ∧
    restore_text_v m x = x := by
  cases x with
  | pstr s => simp [PyVal.isStr] at h
  | pint n => exact ⟨rfl, rfl, rfl⟩
  | pbool b => exact ⟨rfl, rfl, rfl⟩
  | pnone => exact ⟨rfl, rfl, rfl⟩

/-- Claim C7, witness. -/
theorem claim7_witness :
    (PyVal.pint 3).isStr = false ∧
    detect_pii_in_text_v witnessManager5 (PyVal.pint 3) = ([], witnessManager5) ∧
    anonymize_text_v witnessManager5 (PyVal.pint 3) =
      (PyVal.pint 3, witnessManager5) ∧
    restore_text_v witnessManager5 (PyVal.pint 3) = PyVal.pint 3 :=
  ⟨rfl,
    (claim7_non_string_noop witnessManager5 (PyVal.pint 3) rfl).1,
    (claim7_non_string_noop witnessManager5 (PyVal.pint 3) rfl).2.1,
    (claim7_non_string_noop witnessManager5 (PyVal.pint 3) rfl).2.2⟩

/-! ### Claim C8 (stage precedence over claimed spans) -/

/-- Claim C8, counterexample: on `DATE 2023` with no spaCy entities, stage 2
claims the span `(0, 9)`, yet stage 3 still adds the abbreviation `DATE`
with span `(0, 4)`, which overlaps the claimed span — the source checks
exact span equality, not overlap. -/
theorem claim8_counterexample :
    (0, 9) ∈ (nerStage2 "DATE 2023" (findIter properNounRe "DATE 2023")
        (nerStage1 defaultEntityTypeMapping [] ⟨[], []⟩)).claimed ∧
    ("DATE", "ORGANIZATION", 0, 4) ∈ (nerStage3 "DATE 2023"
        (findIter abbrevRe "DATE 2023")
        (nerStage2 "DATE 2023" (findIter properNounRe "DATE 2023")
          (nerStage1 defaultEntityTypeMapping [] ⟨[], []⟩))).ents ∧
    ("DATE", "ORGANIZATION", 0, 4) ∉ (nerStage2 "DATE 2023"
        (findIter properNounRe "DATE 2023")
        (nerStage1 defaultEntityTypeMapping [] ⟨[], []⟩)).ents ∧
    spansOverlap (0, 4) (0, 9) = true := by
  decide

/-- Claim C8 (amended): each heuristic stage adds a detection only when its
span is not *exactly equal* to an already-claimed span (earlier stages take
precedence span-for-span); overlap with a claimed span is not checked. -/
theorem claim8_exact_span_claims :
    (∀ (text : String) (ms : List (Nat × Nat)) (acc : NerAcc),
      ∀ e ∈ (nerStage2 text ms acc).ents,
        e ∈ acc.ents ∨ (e.2.2.1, e.2.2.2) ∉ acc.claimed) ∧
    (∀ (text : String) (ms : List (Nat × Nat)) (acc : NerAcc),
      ∀ e ∈ (nerStage3 text ms acc).ents,
        e ∈ acc.ents ∨ (e.2.2.1, e.2.2.2) ∉ acc.claimed) ∧
    (∀ (text : String) (ms : List (Nat × Nat)) (acc : NerAcc),
      ∀ e ∈ (nerStage4 text ms acc).ents,
        e ∈ acc.ents ∨ (e.2.2.1, e.2.2.2) ∉ acc.claimed) ∧
    (∀ (text : String) (ms : List (Nat × Nat)) (acc : NerAcc),
      ∀ e ∈ (nerStage5 text ms acc).ents,
        e ∈ acc.ents ∨ (e.2.2.1, e.2.2.2) ∉ acc.claimed) :=
  ⟨fun text ms acc => nerStage2_adds_unclaimed ms text acc,
   fun text ms acc => nerStage3_adds_unclaimed ms text acc,
   fun text ms acc => nerStage4_adds_unclaimed ms text acc,
   fun text ms acc => nerStage5_adds_unclaimed ms text acc⟩

/-- Claim C8, witness. -/
theorem claim8_witness :
    ("Foo", "ORGANIZATION", 0, 3) ∈ (nerStage2 "Foo foo"
        (findIter properNounRe "Foo foo") ⟨[], []⟩).ents ∧
    (("Foo", "ORGANIZATION", 0, 3) ∈ (⟨[], []⟩ : NerAcc).ents ∨
      ((0 : Nat), (3 : Nat)) ∉ (⟨[], []⟩ : NerAcc).claimed) :=
  ⟨by decide,
    claim8_exact_span_claims.1 "Foo foo" (findIter properNounRe "Foo foo")
      ⟨[], []⟩ ("Foo", "ORGANIZATION", 0, 3) (by decide)⟩

/-! ### Claim C9 (restore leaves unmapped tokens alone) -/

/-- Claim C9: `restore_text` is a total function by construction, and when no
scanned placeholder-shaped token is a key of the reverse map the text is
returned entirely unchanged; only mapped tokens are spliced, in descending
start order (the shape of `restoreScan`). -/
theorem claim9_restore_unmapped (m : Manager) (s : String)
    (h : ∀ pr ∈ restoreScan s, dictGet m.reverse_map pr.2 = none) :
    restore_text m s = s :=
  restore_noop m s h

/-- Claim C9, witness. -/
theorem claim9_witness :
    (∀ pr ∈ restoreScan "KEEP THIS <X_abcdef12>",
      dictGet witnessManager5.reverse_map pr.2 = none) ∧
    restore_text witnessManager5 "KEEP THIS <X_abcdef12>" =
      "KEEP THIS <X_abcdef12>" :=
  ⟨by decide,
    claim9_restore_unmapped witnessManager5 "KEEP THIS <X_abcdef12>" (by decide)⟩

/-! ### Claim C10 (detection alone registers the maps) -/

/-- Claim C10, counterexample: with colliding hex draws, the triple for
`a@b.co` returned by `detect_pii_in_text` is not registered in the reverse
map — its placeholder maps back to `c@d.co`. -/
theorem claim10_counterexample :
    ("a@b.co", "EMAIL", "<EMAIL_aaaabbbb>") ∈
      (detect_pii_in_text cexManager5 "a@b.co x c@d.co").1 ∧
    dictGet (detect_pii_in_text cexManager5 "a@b.co x c@d.co").2.reverse_map
      "<EMAIL_aaaabbbb>" = some "c@d.co" ∧
    ("c@d.co" : String) ≠ "a@b.co" := by
  decide

/-- Claim C10 (amended): detection alone mutates the Manager state, and in a
collision-free run (size difference unchanged) starting from mutually inverse
maps, every returned triple is registered in both maps. -/
theorem claim10_detect_registers (m : Manager) (s : String)
    (hMI : MutualInverse m)
    (hclean : dLen (detect_pii_in_text m s).2 = dLen m) :
    ∀ d ∈ (detect_pii_in_text m s).1,
      dictGet (detect_pii_in_text m s).2.pii_map d.1 = some d.2.2 ∧
      dictGet (detect_pii_in_text m s).2.reverse_map d.2.2 = some d.1 :=
  (detect_clean m s hMI hclean).2

/-- Claim C10, witness. -/
theorem claim10_witness :
    dLen (detect_pii_in_text witnessManager5 "a@b.co").2 = dLen witnessManager5 ∧
    (∀ d ∈ (detect_pii_in_text witnessManager5 "a@b.co").1,
      dictGet (detect_pii_in_text witnessManager5 "a@b.co").2.pii_map d.1 =
        some d.2.2 ∧
      dictGet (detect_pii_in_text witnessManager5 "a@b.co").2.reverse_map d.2.2 =
        some d.1) :=
  ⟨by decide,
    claim10_detect_registers witnessManager5 "a@b.co"
      (mkManager_MI (mkPiiConfig []) false [] none ["aaaabbbb"]) (by decide)⟩

end Pii
